import Mathlib

/-!
Shallow embedding of the go-generics-cache repository.

The Go code keeps, for each eviction policy, a `map[K]…` of handles into an
ordering structure (a doubly-linked list, a ring, or a binary heap).  The map
and the ordering structure are always kept in sync, so the list-based policies
(LRU, MRU, FIFO) are embedded as a single association list that plays both
roles: looking a key up in the map is looking it up in the list, and the list
order is the order of the Go `container/list`.  Machine integers that can
never overflow in the modelled scenarios (lengths, reference counts, unix
nanoseconds) are embedded as `Nat`/`Int`.
-/

/-- Looks up the value stored under `k` in an association list
(the Go `map[K]*list.Element` lookup followed by reading the element). -/
def findVal {K V : Type} [DecidableEq K] : List (K × V) → K → Option V
  | [], _ => none
  | (k', v) :: rest, k => if k = k' then some v else findVal rest k

/-- Removes the first binding of `k` from an association list
(deleting a key from the Go map together with its list node). -/
def removeKey {K V : Type} [DecidableEq K] : List (K × V) → K → List (K × V)
  | [], _ => []
  | (k', v) :: rest, k => if k = k' then rest else (k', v) :: removeKey rest k

theorem findVal_none_iff {K V : Type} [DecidableEq K] (l : List (K × V)) (k : K) :
    findVal l k = none ↔ k ∉ l.map Prod.fst := by
  induction l with
  | nil => simp [findVal]
  | cons p rest ih =>
    obtain ⟨k', v⟩ := p
    by_cases h : k = k' <;> simp [findVal, h, ih]

theorem length_removeKey_of_found {K V : Type} [DecidableEq K] (l : List (K × V)) (k : K)
    (h : findVal l k ≠ none) : (removeKey l k).length + 1 = l.length := by
  induction l with
  | nil => simp [findVal] at h
  | cons p rest ih =>
    obtain ⟨k', v⟩ := p
    by_cases hk : k = k'
    · simp [removeKey, hk]
    · simp only [findVal, if_neg hk] at h
      simp [removeKey, if_neg hk, ih h]

theorem length_removeKey_le {K V : Type} [DecidableEq K] (l : List (K × V)) (k : K) :
    (removeKey l k).length ≤ l.length := by
  induction l with
  | nil => simp [removeKey]
  | cons p rest ih =>
    obtain ⟨k', v⟩ := p
    by_cases hk : k = k'
    · simp [removeKey, hk]
    · simp only [removeKey, if_neg hk, List.length_cons]
      omega


theorem mem_removeKey {K V : Type} [DecidableEq K] (l : List (K × V)) (k : K)
    (p : K × V) (h : p ∈ removeKey l k) : p ∈ l := by
  induction l with
  | nil => simp [removeKey] at h
  | cons q rest ih =>
    obtain ⟨k', v⟩ := q
    by_cases hk : k = k'
    · simp only [removeKey, if_pos hk] at h
      exact List.mem_cons_of_mem _ h
    · simp only [removeKey, if_neg hk, List.mem_cons] at h
      rcases h with h | h
      · exact h ▸ List.mem_cons_self _ _
      · exact List.mem_cons_of_mem _ (ih h)

theorem map_fst_removeKey_subset {K V : Type} [DecidableEq K] (l : List (K × V)) (k : K) :
    ((removeKey l k).map Prod.fst) ⊆ l.map Prod.fst := by
  intro x hx
  simp only [List.mem_map] at hx ⊢
  obtain ⟨p, hp, hfst⟩ := hx
  exact ⟨p, mem_removeKey l k p hp, hfst⟩

theorem nodup_removeKey {K V : Type} [DecidableEq K] (l : List (K × V)) (k : K)
    (h : (l.map Prod.fst).Nodup) : ((removeKey l k).map Prod.fst).Nodup := by
  induction l with
  | nil => simp [removeKey]
  | cons p rest ih =>
    obtain ⟨k', v⟩ := p
    simp only [List.map_cons, List.nodup_cons] at h
    by_cases hk : k = k'
    · simpa [removeKey, hk] using h.2
    · simp only [removeKey, if_neg hk, List.map_cons, List.nodup_cons]
      exact ⟨fun hc => h.1 (map_fst_removeKey_subset rest k hc), ih h.2⟩

/-- In a duplicate-free association list, no binding of `k` survives `removeKey l k`. -/
theorem not_mem_map_fst_removeKey {K V : Type} [DecidableEq K] (l : List (K × V)) (k : K)
    (h : (l.map Prod.fst).Nodup) : k ∉ (removeKey l k).map Prod.fst := by
  induction l with
  | nil => simp [removeKey]
  | cons p rest ih =>
    obtain ⟨k', v⟩ := p
    simp only [List.map_cons, List.nodup_cons] at h
    by_cases hk : k = k'
    · subst hk
      simpa [removeKey] using h.1
    · simp only [removeKey, if_neg hk, List.map_cons, List.mem_cons]
      rintro (rfl | hc)
      · exact hk rfl
      · exact ih h.2 hc

theorem findVal_append_last {K V : Type} [DecidableEq K] (l : List (K × V)) (k : K) (v : V)
    (h : k ∉ l.map Prod.fst) : findVal (l ++ [(k, v)]) k = some v := by
  induction l with
  | nil => simp [findVal]
  | cons p rest ih =>
    obtain ⟨k', w⟩ := p
    simp only [List.map_cons, List.mem_cons] at h
    push_neg at h
    simp [findVal, if_neg h.1, ih h.2]

theorem findVal_of_mem_nodup {K V : Type} [DecidableEq K] (l : List (K × V)) (k : K) (v : V)
    (hmem : (k, v) ∈ l) (h : (l.map Prod.fst).Nodup) : findVal l k = some v := by
  induction l with
  | nil => simp at hmem
  | cons p rest ih =>
    obtain ⟨k', w⟩ := p
    simp only [List.map_cons, List.nodup_cons] at h
    rcases List.mem_cons.mp hmem with heq | hmem2
    · rw [Prod.mk.injEq] at heq
      obtain ⟨rfl, rfl⟩ := heq
      simp [findVal]
    · have hk : k ≠ k' := by
        rintro rfl
        exact h.1 (List.mem_map.mpr ⟨(k, v), hmem2, rfl⟩)
      simp [findVal, if_neg hk, ih hmem2 h.2]

/-! ## LRU policy (`policy/lru/lru.go`)

The Go cache keeps `list *list.List` (front = most recently used) and
`items map[K]*list.Element`; both are represented by one association list
whose head is the front of the Go list. -/

namespace lru

structure Cache (K V : Type) where
  cap : Nat
  list : List (K × V)

variable {K V : Type} [DecidableEq K]

/-- `NewCache` with `WithCapacity cap` (the default capacity is 128). -/
def newCache (cap : Nat) : Cache K V := ⟨cap, []⟩

/-- `Get`: on a hit the touched element is moved to the front of the list. -/
def Cache.get (c : Cache K V) (k : K) : Option V × Cache K V :=
  match findVal c.list k with
  | none => (none, c)
  | some v => (some v, { c with list := (k, v) :: removeKey c.list k })

/-- `deleteOldest` removes the element at the back of the list. -/
def Cache.deleteOldest (c : Cache K V) : Cache K V :=
  { c with list := c.list.dropLast }

/-- `Set`: an existing key is updated and moved to the front; a new key is
pushed at the front and, if the list now exceeds the capacity, the oldest
(back) element is evicted. -/
def Cache.set (c : Cache K V) (k : K) (v : V) : Cache K V :=
  match findVal c.list k with
  | some _ => { c with list := (k, v) :: removeKey c.list k }
  | none =>
    let pushed : Cache K V := { c with list := (k, v) :: c.list }
    if pushed.list.length > c.cap then pushed.deleteOldest else pushed

/-- `Keys` iterates from the back of the list to the front (oldest to newest). -/
def Cache.keys (c : Cache K V) : List K :=
  (c.list.map Prod.fst).reverse

/-- `Len` is the length of the list. -/
def Cache.len (c : Cache K V) : Nat := c.list.length

/-- `Delete` removes the node and the map entry; no-op when absent. -/
def Cache.delete (c : Cache K V) (k : K) : Cache K V :=
  match findVal c.list k with
  | some _ => { c with list := removeKey c.list k }
  | none => c

/-- Folding `Set` over a list of key/value pairs. -/
def Cache.setAll (c : Cache K V) (ps : List (K × V)) : Cache K V :=
  ps.foldl (fun acc p => acc.set p.1 p.2) c

theorem lru_get_fst (c : Cache K V) (k : K) : (c.get k).1 = findVal c.list k := by
  unfold Cache.get
  cases findVal c.list k <;> rfl

/-- Inserting fresh, pairwise-distinct keys that keep the cache within its
capacity just stacks them at the front, newest first. -/
theorem setAll_fresh (ps : List (K × V)) : ∀ (c : Cache K V),
    (ps.map Prod.fst).Nodup →
    (∀ k, k ∈ ps.map Prod.fst → k ∉ c.list.map Prod.fst) →
    c.list.length + ps.length ≤ c.cap →
    (c.setAll ps).list = ps.reverse ++ c.list ∧ (c.setAll ps).cap = c.cap := by
  induction ps with
  | nil => intro c _ _ _; exact ⟨rfl, rfl⟩
  | cons p rest ih =>
    intro c hnodup hfresh hlen
    obtain ⟨k, v⟩ := p
    have hknotin : k ∉ c.list.map Prod.fst := hfresh k (by simp)
    have hfind : findVal c.list k = none := (findVal_none_iff _ _).mpr hknotin
    have hstep : c.set k v = { c with list := (k, v) :: c.list } := by
      unfold Cache.set
      rw [hfind]
      simp only [List.length_cons]
      have : ¬ c.list.length + 1 > c.cap := by
        simp only [List.length_cons] at hlen
        omega
      simp [this]
    simp only [List.map_cons, List.nodup_cons] at hnodup
    have hrest := ih ({ c with list := (k, v) :: c.list })
      hnodup.2
      (by
        intro k' hk' hmem
        simp only [List.map_cons, List.mem_cons] at hmem
        rcases hmem with rfl | hmem
        · exact hnodup.1 hk'
        · exact hfresh k' (by simp [hk']) hmem)
      (by simp only [List.length_cons] at hlen ⊢; omega)
    constructor
    · show (Cache.setAll (c.set k v) rest).list = _
      rw [hstep]
      rw [hrest.1]
      simp
    · show (Cache.setAll (c.set k v) rest).cap = _
      rw [hstep, hrest.2]

theorem setAll_append (c : Cache K V) (ps qs : List (K × V)) :
    c.setAll (ps ++ qs) = (c.setAll ps).setAll qs := by
  simp [Cache.setAll, List.foldl_append]

/-- One `Set`/`Get`/`Delete` step never pushes the list beyond the capacity
(provided it started within it). -/
theorem lru_len_le_cap_get (c : Cache K V) (k : K) (h : c.list.length ≤ c.cap) :
    ((c.get k).2).list.length ≤ c.cap := by
  unfold Cache.get
  cases hf : findVal c.list k with
  | none => simpa using h
  | some v =>
    simp only [List.length_cons]
    have := length_removeKey_of_found c.list k (by simp [hf])
    omega

theorem lru_len_le_cap_set (c : Cache K V) (k : K) (v : V)
    (h : c.list.length ≤ c.cap) : ((c.set k v)).list.length ≤ c.cap := by
  unfold Cache.set
  cases hf : findVal c.list k with
  | some w =>
    simp only [List.length_cons]
    have := length_removeKey_of_found c.list k (by simp [hf])
    omega
  | none =>
    simp only [Cache.deleteOldest]
    by_cases hover : ((k, v) :: c.list).length > c.cap
    · rw [if_pos hover]
      simp only [List.length_dropLast, List.length_cons, Nat.add_sub_cancel]
      exact h
    · rw [if_neg hover]
      simp only [List.length_cons] at hover
      simp only [List.length_cons]
      omega

theorem lru_len_le_cap_delete (c : Cache K V) (k : K) (h : c.list.length ≤ c.cap) :
    ((c.delete k)).list.length ≤ c.cap := by
  unfold Cache.delete
  cases hf : findVal c.list k with
  | none => exact h
  | some v =>
    simp only
    exact le_trans (length_removeKey_le c.list k) h

end lru

theorem reverse_cons_dropLast {A : Type} (p : A) (l : List A) :
    ((p :: l).reverse).dropLast = l.reverse := by
  rw [List.reverse_cons, List.dropLast_concat]

/-- **C6.** For the LRU policy with any capacity `cap ≥ 1`, setting `cap + 1`
pairwise-distinct keys with no intervening `Get` evicts exactly the
first-inserted key: afterwards `Get` of the first key misses and `Get` of each
of the other `cap` keys hits (with the value that was set). -/
theorem lru_set_capPlusOne_evicts_first
    (cap : Nat) (p0 : Nat × Nat) (rest : List (Nat × Nat))
    (hcap : 1 ≤ cap)
    (hlen : (p0 :: rest).length = cap + 1)
    (hnodup : ((p0 :: rest).map Prod.fst).Nodup) :
    ((((lru.newCache cap).setAll (p0 :: rest)).get p0.1).1 = none) ∧
    (∀ p ∈ rest, (((lru.newCache cap).setAll (p0 :: rest)).get p.1).1 = some p.2) := by
  classical
  rcases List.eq_nil_or_concat rest with rfl | ⟨mid, plast, rfl⟩
  · simp at hlen
    omega
  · simp only [List.concat_eq_append] at hlen hnodup ⊢
    have hps : p0 :: (mid ++ [plast]) = (p0 :: mid) ++ [plast] := by simp
    rw [hps] at hnodup hlen ⊢
    rw [lru.setAll_append]
    -- dissect the distinctness hypothesis
    have hkeysnodup : (p0.1 :: (mid.map Prod.fst ++ [plast.1])).Nodup := by
      simpa using hnodup
    obtain ⟨hp0notin, hrestkeys⟩ := List.nodup_cons.mp hkeysnodup
    obtain ⟨hmidnodup, _, hdisj⟩ := List.nodup_append.mp hrestkeys
    have hp0nemid : p0.1 ∉ mid.map Prod.fst := fun hc => hp0notin (by simp [hc])
    have hp0neplast : p0.1 ≠ plast.1 := fun hc => hp0notin (by simp [hc])
    have hnodupInit : ((p0 :: mid).map Prod.fst).Nodup := by
      simp only [List.map_cons, List.nodup_cons]
      exact ⟨hp0nemid, hmidnodup⟩
    have hlen2 : (p0 :: mid).length = cap := by
      simp only [List.length_append, List.length_cons, List.length_nil] at hlen
      simp only [List.length_cons]
      omega
    have hfirst := lru.setAll_fresh (K := Nat) (V := Nat) (p0 :: mid) (lru.newCache cap)
      hnodupInit (by intro k _ hmem; simp [lru.newCache] at hmem)
      (by simp [lru.newCache, hlen2])
    set c1 := (lru.newCache (K := Nat) (V := Nat) cap).setAll (p0 :: mid) with hc1
    have hc1list : c1.list = (p0 :: mid).reverse := by
      simpa [lru.newCache] using hfirst.1
    have hc1cap : c1.cap = cap := hfirst.2
    -- the overflowing `Set` of the last key
    have hlastfresh : plast.1 ∉ c1.list.map Prod.fst := by
      rw [hc1list]
      intro hmem
      simp only [List.map_reverse, List.mem_reverse, List.map_cons, List.mem_cons] at hmem
      rcases hmem with hc | hc
      · exact hp0neplast hc.symm
      · exact hdisj hc (by simp)
    have hfind : findVal c1.list plast.1 = none := (findVal_none_iff _ _).mpr hlastfresh
    have hover : ((plast.1, plast.2) :: c1.list).length > c1.cap := by
      rw [hc1list, hc1cap]
      simp only [List.length_cons, List.length_reverse, hlen2]
      omega
    have hsetlast : lru.Cache.setAll c1 [plast] =
        { c1 with list := plast :: mid.reverse } := by
      show lru.Cache.set c1 plast.1 plast.2 = _
      unfold lru.Cache.set
      rw [hfind]
      rw [if_pos hover]
      unfold lru.Cache.deleteOldest
      rw [hc1list, List.reverse_cons]
      rw [show (plast.1, plast.2) :: (mid.reverse ++ [p0]) =
          ((plast.1, plast.2) :: mid.reverse) ++ [p0] from rfl]
      rw [List.dropLast_concat]
    rw [hsetlast]
    have hmidrevnodup : (mid.reverse.map Prod.fst).Nodup := by
      rw [List.map_reverse, List.nodup_reverse]
      exact hmidnodup
    constructor
    · rw [lru.lru_get_fst]
      apply (findVal_none_iff _ _).mpr
      simp only [List.map_cons, List.mem_cons, List.map_reverse, List.mem_reverse]
      push_neg
      exact ⟨hp0neplast, fun hc => hp0nemid hc⟩
    · intro p hp
      rw [lru.lru_get_fst]
      rcases List.mem_append.mp hp with hpmid | hplast
      · have hne : p.1 ≠ plast.1 := by
          intro heq
          exact hdisj (List.mem_map.mpr ⟨p, hpmid, rfl⟩) (by simp [heq])
        have hred : findVal (plast :: mid.reverse) p.1 = findVal mid.reverse p.1 := by
          rcases plast with ⟨kl, vl⟩
          simp only [findVal, if_neg hne]
        rw [hred]
        exact findVal_of_mem_nodup _ _ _ (List.mem_reverse.mpr hpmid) hmidrevnodup
      · have : p = plast := by simpa using hplast
        subst this
        rcases p with ⟨kp, vp⟩
        simp [findVal]

/-- Witness for C6 at `cap = 1`, keys `0` then `1`. -/
theorem lru_set_capPlusOne_evicts_first_witness :
    ((((lru.newCache 1).setAll [(0, 5), (1, 7)]).get 0).1 = none) ∧
    ((((lru.newCache 1).setAll [(0, 5), (1, 7)]).get 1).1 = some 7) := by
  have h := lru_set_capPlusOne_evicts_first 1 (0, 5) [(1, 7)]
    (by decide) (by decide) (by decide)
  exact ⟨h.1, h.2 (1, 7) (by decide)⟩

/-! ## MRU policy (`policy/mru/mru.go`)

The Go cache pushes new and touched entries to the back of the list
(`MoveToBack`/`PushBack`) and `deleteNewest` removes the front element.
The association list below is in Go list order: head = Go front. -/

namespace mru

structure Cache (K V : Type) where
  cap : Nat
  list : List (K × V)

variable {K V : Type} [DecidableEq K]

/-- `NewCache` with `WithCapacity cap` (the default capacity is 128). -/
def newCache (cap : Nat) : Cache K V := ⟨cap, []⟩

/-- `Get`: on a hit the touched element is moved to the back of the list. -/
def Cache.get (c : Cache K V) (k : K) : Option V × Cache K V :=
  match findVal c.list k with
  | none => (none, c)
  | some v => (some v, { c with list := removeKey c.list k ++ [(k, v)] })

/-- `deleteNewest` removes the element at the front of the list. -/
def Cache.deleteNewest (c : Cache K V) : Cache K V :=
  { c with list := c.list.drop 1 }

/-- `Set`: an existing key is updated and moved to the back; for a new key,
if the list is exactly at capacity the front element is removed first, then
the new entry is pushed at the back. -/
def Cache.set (c : Cache K V) (k : K) (v : V) : Cache K V :=
  match findVal c.list k with
  | some _ => { c with list := removeKey c.list k ++ [(k, v)] }
  | none =>
    let c' := if c.list.length = c.cap then c.deleteNewest else c
    { c' with list := c'.list ++ [(k, v)] }

/-- `Keys` iterates from the back of the list to the front. -/
def Cache.keys (c : Cache K V) : List K :=
  (c.list.map Prod.fst).reverse

/-- `Len` is the length of the list. -/
def Cache.len (c : Cache K V) : Nat := c.list.length

/-- `Delete` removes the node and the map entry; no-op when absent. -/
def Cache.delete (c : Cache K V) (k : K) : Cache K V :=
  match findVal c.list k with
  | some _ => { c with list := removeKey c.list k }
  | none => c

theorem mru_get_fst (c : Cache K V) (k : K) : (c.get k).1 = findVal c.list k := by
  unfold Cache.get
  cases findVal c.list k <;> rfl

theorem mru_len_le_cap_get (c : Cache K V) (k : K) (h : c.list.length ≤ c.cap) :
    ((c.get k).2).list.length ≤ c.cap := by
  unfold Cache.get
  cases hf : findVal c.list k with
  | none => simpa using h
  | some v =>
    simp only [List.length_append, List.length_singleton]
    have := length_removeKey_of_found c.list k (by simp [hf])
    omega

theorem mru_len_le_cap_set (c : Cache K V) (k : K) (v : V) (hcap : 1 ≤ c.cap)
    (h : c.list.length ≤ c.cap) : ((c.set k v)).list.length ≤ c.cap := by
  unfold Cache.set
  cases hf : findVal c.list k with
  | some w =>
    simp only [List.length_append, List.length_singleton]
    have := length_removeKey_of_found c.list k (by simp [hf])
    omega
  | none =>
    simp only [Cache.deleteNewest]
    by_cases hfull : c.list.length = c.cap
    · rw [if_pos hfull]
      simp only [List.length_append, List.length_drop, List.length_singleton]
      omega
    · rw [if_neg hfull]
      simp only [List.length_append, List.length_singleton]
      omega

theorem mru_len_le_cap_delete (c : Cache K V) (k : K) (h : c.list.length ≤ c.cap) :
    ((c.delete k)).list.length ≤ c.cap := by
  unfold Cache.delete
  cases hf : findVal c.list k with
  | none => exact h
  | some v => exact le_trans (length_removeKey_le c.list k) h

end mru

/-- The MRU trace of claim C3 (capacity 2):
`Set a 1; Set b 2; Get a; Set c 3`. -/
def mruTraceC3 (a b c : Nat) : mru.Cache Nat Nat :=
  let s1 := (mru.newCache 2).set a 1
  let s2 := s1.set b 2
  let s3 := (s2.get a).2
  s3.set c 3

/-- **C3, counterexample.** The claim predicts that with capacity 2, after
`Set(a)`, `Set(b)`, `Get(a)`, an overflowing `Set(c)` evicts `a` (so `Get(a)`
misses) and keeps `b` (so `Get(b)` hits).  At `a = 0`, `b = 1`, `c = 2` the
code does the opposite. -/
theorem mru_C3_claim_false_at_012 :
    ¬ ((((mruTraceC3 0 1 2).get 0).1 = none) ∧ (((mruTraceC3 0 1 2).get 1).1 = some 2)) := by
  decide

/-- **C3, amended.** `deleteNewest` removes the *front* of the recency list,
while `Get`/`Set` move touched entries to the back; the front is therefore the
least-recently-touched entry.  With capacity 2, after `Set(a,1)`, `Set(b,2)`,
`Get(a)`, an overflowing `Set(c,3)` evicts `b` — not `a`: afterwards `Get(b)`
misses while `Get(a)` and `Get(c)` hit. -/
theorem mru_set_evicts_front_of_list (a b c : Nat)
    (hab : a ≠ b) (hbc : b ≠ c) (hac : a ≠ c) :
    (((mruTraceC3 a b c).get b).1 = none) ∧
    (((mruTraceC3 a b c).get a).1 = some 1) ∧
    (((mruTraceC3 a b c).get c).1 = some 3) := by
  have h1 : (mru.newCache 2).set a 1 = ⟨2, [(a, 1)]⟩ := by
    unfold mru.Cache.set
    simp [mru.newCache, findVal, mru.Cache.deleteNewest]
  have h2 : (mru.Cache.set ⟨2, [(a, 1)]⟩ b 2 : mru.Cache Nat Nat) = ⟨2, [(a, 1), (b, 2)]⟩ := by
    unfold mru.Cache.set
    simp [findVal, if_neg (Ne.symm hab), mru.Cache.deleteNewest,
      show b ≠ a from Ne.symm hab]
  have h3 : (mru.Cache.get ⟨2, [(a, 1), (b, 2)]⟩ a : Option Nat × mru.Cache Nat Nat)
      = (some 1, ⟨2, [(b, 2), (a, 1)]⟩) := by
    unfold mru.Cache.get
    simp [findVal, removeKey]
  have h4 : (mru.Cache.set ⟨2, [(b, 2), (a, 1)]⟩ c 3 : mru.Cache Nat Nat)
      = ⟨2, [(a, 1), (c, 3)]⟩ := by
    unfold mru.Cache.set
    simp [findVal, if_neg (Ne.symm hbc), if_neg (Ne.symm hac), mru.Cache.deleteNewest]
  have htrace : mruTraceC3 a b c = ⟨2, [(a, 1), (c, 3)]⟩ := by
    show ((((mru.newCache 2).set a 1).set b 2).get a).2.set c 3 = _
    rw [h1, h2, h3, h4]
  rw [htrace]
  refine ⟨?_, ?_, ?_⟩
  · rw [mru.mru_get_fst]
    simp [findVal, if_neg (Ne.symm hab), if_neg hbc]
  · rw [mru.mru_get_fst]
    simp [findVal]
  · rw [mru.mru_get_fst]
    simp [findVal, if_neg (Ne.symm hac)]

/-- Witness for the amended C3 at `a = 0`, `b = 1`, `c = 2`. -/
theorem mru_set_evicts_front_of_list_witness :
    (((mruTraceC3 0 1 2).get 1).1 = none) ∧
    (((mruTraceC3 0 1 2).get 0).1 = some 1) ∧
    (((mruTraceC3 0 1 2).get 2).1 = some 3) :=
  mru_set_evicts_front_of_list 0 1 2 (by decide) (by decide) (by decide)

theorem removeKey_of_not_mem {K V : Type} [DecidableEq K] (l : List (K × V)) (k : K)
    (h : k ∉ l.map Prod.fst) : removeKey l k = l := by
  induction l with
  | nil => rfl
  | cons p rest ih =>
    obtain ⟨k', v⟩ := p
    simp only [List.map_cons, List.mem_cons] at h
    push_neg at h
    simp [removeKey, if_neg h.1, ih h.2]

/-! ## FIFO policy (`policy/fifo/fifo.go`)

`queue *list.List` with the head at the front; `items map[K]*list.Element`
is the key set of the queue (the two are kept in sync by every operation),
so a single association list in queue order models both. -/

namespace fifo

structure Cache (K V : Type) where
  capacity : Nat
  queue : List (K × V)

variable {K V : Type} [DecidableEq K]

/-- `NewCache` with `WithCapacity cap` (the default capacity is 128). -/
def newCache (cap : Nat) : Cache K V := ⟨cap, []⟩

/-- `dequeue` removes and returns the front element of the queue. -/
def Cache.dequeue (c : Cache K V) : Option (K × V) × Cache K V :=
  (c.queue.head?, { c with queue := c.queue.drop 1 })

/-- `Get` never reorders. -/
def Cache.get (c : Cache K V) (k : K) : Option V × Cache K V :=
  (findVal c.queue k, c)

/-- `Delete` removes the element and map entry of `k`; no-op when absent. -/
def Cache.delete (c : Cache K V) (k : K) : Cache K V :=
  { c with queue := removeKey c.queue k }

/-- `Set`: when the queue is at capacity the head is dequeued (and its key
deleted from the map — implicit here since the map is the queue key set);
then any old binding of `k` is deleted and `(k, v)` is appended at the back. -/
def Cache.set (c : Cache K V) (k : K) (v : V) : Cache K V :=
  let c1 := if c.queue.length = c.capacity then (c.dequeue).2 else c
  let c2 := c1.delete k
  { c2 with queue := c2.queue ++ [(k, v)] }

/-- `Keys` returns the queue keys front to back. -/
def Cache.keys (c : Cache K V) : List K :=
  c.queue.map Prod.fst

/-- `Len` is the queue length. -/
def Cache.len (c : Cache K V) : Nat := c.queue.length

theorem fifo_len_le_cap_set (c : Cache K V) (k : K) (v : V) (hcap : 1 ≤ c.capacity)
    (h : c.queue.length ≤ c.capacity) : ((c.set k v)).queue.length ≤ c.capacity := by
  unfold Cache.set Cache.dequeue Cache.delete
  by_cases hfull : c.queue.length = c.capacity
  · simp only [if_pos hfull, List.length_append, List.length_singleton]
    have h1 : (c.queue.drop 1).length = c.queue.length - 1 := by simp
    have h2 := length_removeKey_le (c.queue.drop 1) k
    omega
  · simp only [if_neg hfull, List.length_append, List.length_singleton]
    have h2 := length_removeKey_le c.queue k
    omega

theorem fifo_len_le_cap_delete (c : Cache K V) (k : K) (h : c.queue.length ≤ c.capacity) :
    ((c.delete k)).queue.length ≤ c.capacity := by
  unfold Cache.delete
  exact le_trans (length_removeKey_le c.queue k) h

end fifo

/-- **C7.** For the FIFO policy below capacity, `Set` of an already-present
key moves it to the tail of the queue: starting empty (capacity at least 3,
e.g. the default 128), after `Set(a,1)`, `Set(b,2)`, `Set(a,3)`, `Keys()`
returns `[b, a]` and `Get(a)` returns `(3, true)`. -/
theorem fifo_update_refreshes_position (cap a b : Nat)
    (hcap : 3 ≤ cap) (hab : a ≠ b) :
    ((((fifo.newCache cap).set a 1).set b 2).set a 3).keys = [b, a] ∧
    (((((fifo.newCache cap).set a 1).set b 2).set a 3).get a).1 = some 3 := by
  have hne0 : (0 : Nat) ≠ cap := by omega
  have hne1 : (1 : Nat) ≠ cap := by omega
  have hne2 : (2 : Nat) ≠ cap := by omega
  have h1 : (fifo.newCache cap).set a 1 = (⟨cap, [(a, 1)]⟩ : fifo.Cache Nat Nat) := by
    unfold fifo.Cache.set fifo.Cache.dequeue fifo.Cache.delete
    simp [fifo.newCache, removeKey, hne0]
  have h2 : (fifo.Cache.set ⟨cap, [(a, 1)]⟩ b 2 : fifo.Cache Nat Nat)
      = ⟨cap, [(a, 1), (b, 2)]⟩ := by
    unfold fifo.Cache.set fifo.Cache.dequeue fifo.Cache.delete
    simp [hne1, removeKey, if_neg (Ne.symm hab)]
  have h3 : (fifo.Cache.set ⟨cap, [(a, 1), (b, 2)]⟩ a 3 : fifo.Cache Nat Nat)
      = ⟨cap, [(b, 2), (a, 3)]⟩ := by
    unfold fifo.Cache.set fifo.Cache.dequeue fifo.Cache.delete
    simp [hne2, removeKey, if_neg hab]
  rw [h1, h2, h3]
  constructor
  · simp [fifo.Cache.keys]
  · show findVal [(b, 2), (a, 3)] a = some 3
    simp [findVal, if_neg hab]

/-- Witness for C7 at the default capacity 128, `a = 0`, `b = 1`. -/
theorem fifo_update_refreshes_position_witness :
    ((((fifo.newCache 128).set 0 1).set 1 2).set 0 3).keys = [1, 0] ∧
    (((((fifo.newCache 128).set 0 1).set 1 2).set 0 3).get 0).1 = some 3 :=
  fifo_update_refreshes_position 128 0 1 (by decide) (by decide)

/-- **C10.** For the FIFO policy at capacity, `Set` on an already-present key
first dequeues (and deletes) the queue head.  If the updated key is not the
head, the head key is evicted and the length drops to `capacity - 1`; if the
updated key is the head itself, the cache stays at capacity with the value
replaced. -/
theorem fifo_set_at_capacity_dequeues_head
    (cap : Nat) (k0 : Nat) (v0 : Nat) (qrest : List (Nat × Nat)) (k v : Nat)
    (hnodup : (((k0, v0) :: qrest).map Prod.fst).Nodup)
    (hlen : ((k0, v0) :: qrest).length = cap)
    (hmem : findVal ((k0, v0) :: qrest) k ≠ none) :
    (k = k0 →
      (fifo.Cache.set ⟨cap, (k0, v0) :: qrest⟩ k v).queue.length = cap ∧
      findVal (fifo.Cache.set ⟨cap, (k0, v0) :: qrest⟩ k v).queue k = some v) ∧
    (k ≠ k0 →
      (fifo.Cache.set ⟨cap, (k0, v0) :: qrest⟩ k v).queue.length = cap - 1 ∧
      findVal (fifo.Cache.set ⟨cap, (k0, v0) :: qrest⟩ k v).queue k0 = none ∧
      findVal (fifo.Cache.set ⟨cap, (k0, v0) :: qrest⟩ k v).queue k = some v) := by
  simp only [List.map_cons, List.nodup_cons] at hnodup
  obtain ⟨hk0notin, hqnodup⟩ := hnodup
  have hset : fifo.Cache.set ⟨cap, (k0, v0) :: qrest⟩ k v
      = ⟨cap, removeKey qrest k ++ [(k, v)]⟩ := by
    unfold fifo.Cache.set fifo.Cache.dequeue fifo.Cache.delete
    simp only [hlen, if_pos rfl, List.drop_one, List.tail_cons]
    simp
  rw [hset]
  constructor
  · rintro rfl
    have hrem : removeKey qrest k = qrest := removeKey_of_not_mem qrest k hk0notin
    rw [hrem]
    constructor
    · simp only [List.length_append, List.length_singleton]
      simp only [List.length_cons] at hlen
      omega
    · exact findVal_append_last qrest k v hk0notin
  · intro hk
    have hkq : findVal qrest k ≠ none := by
      simpa [findVal, if_neg hk] using hmem
    constructor
    · simp only [List.length_append, List.length_singleton]
      have := length_removeKey_of_found qrest k hkq
      simp only [List.length_cons] at hlen
      omega
    constructor
    · apply (findVal_none_iff _ _).mpr
      simp only [List.map_append, List.mem_append, List.map_cons, List.map_nil,
        List.mem_singleton, List.mem_cons]
      push_neg
      refine ⟨fun hc => hk0notin (map_fst_removeKey_subset qrest k hc), ?_⟩
      exact ⟨Ne.symm hk, by simp⟩
    · exact findVal_append_last (removeKey qrest k) k v
        (not_mem_map_fst_removeKey qrest k hqnodup)

/-- Witness for C10: capacity 2, queue `[(0,10), (1,20)]`, updating key `1`
(not the head) drops the length to 1 and evicts key `0`. -/
theorem fifo_set_at_capacity_dequeues_head_witness :
    (fifo.Cache.set ⟨2, [(0, 10), (1, 20)]⟩ 1 99).queue.length = 1 ∧
    findVal (fifo.Cache.set ⟨2, [(0, 10), (1, 20)]⟩ 1 99).queue 0 = none ∧
    findVal (fifo.Cache.set ⟨2, [(0, 10), (1, 20)]⟩ 1 99).queue 1 = some 99 :=
  (fifo_set_at_capacity_dequeues_head 2 0 10 [(1, 20)] 1 99
    (by decide) (by decide) (by decide)).2 (by decide)

/-! ## Clock policy (`policy/clock/clock.go`)

`container/ring` of size `capacity` is modelled as a list of `Option`
entries indexed by ring position; `head` (never reassigned after
construction) sits at index 0, `hand` is an index, and `Next()` is
`(i + 1) % capacity`.  `items map[K]*ring.Ring` maps a key to the index of
its slot. -/

namespace clock

structure Entry (K V : Type) where
  key : K
  val : V
  referenceCount : Int
deriving DecidableEq

structure Cache (K V : Type) where
  ring : List (Option (Entry K V))
  hand : Nat
  items : List (K × Nat)
  capacity : Nat
deriving DecidableEq

variable {K V : Type} [DecidableEq K]

/-- `NewCache` with `WithCapacity cap` (the default capacity is 128). -/
def newCache (cap : Nat) : Cache K V := ⟨List.replicate cap none, 0, [], cap⟩

/-- Reading a ring slot (`r.Value` at a given position). -/
def ringGet (r : List (Option (Entry K V))) (i : Nat) : Option (Entry K V) :=
  r.getD i none

/-- Total of the positive reference counts; each iteration of the eviction
sweep decrements one positive count, so this bounds the number of sweep
steps.  Used only to supply sufficient fuel to `evictLoop`. -/
def sumPosRc (r : List (Option (Entry K V))) : Nat :=
  (r.map (fun s => match s with
    | none => 0
    | some e => e.referenceCount.toNat)).sum

/-- The sweep of `evict`: starting at the hand, decrement the current slot
while its reference count is positive, advancing the hand; when a slot with
a non-positive count is reached, delete its key from the map and clear the
slot (the hand stays on the cleared slot).  The fuel only bounds the
iteration count; `Cache.evict` supplies enough for the loop to finish.
A `none` slot mid-sweep would make the Go type assertion panic; that state
is unreachable from `newCache` (see `clock.Inv`), and the model returns the
state unchanged there. -/
def evictLoop : Nat → Cache K V → Cache K V
  | 0, c => c
  | fuel + 1, c =>
    match ringGet c.ring c.hand with
    | none => c
    | some e =>
      if 0 < e.referenceCount then
        evictLoop fuel { c with
          ring := c.ring.set c.hand (some { e with referenceCount := e.referenceCount - 1 }),
          hand := (c.hand + 1) % c.capacity }
      else
        { c with items := removeKey c.items e.key, ring := c.ring.set c.hand none }

/-- `evict`: nothing happens when the hand is on an empty slot, otherwise
the clock sweep runs. -/
def Cache.evict (c : Cache K V) : Cache K V :=
  match ringGet c.ring c.hand with
  | none => c
  | some _ => evictLoop (sumPosRc c.ring + 1) c

/-- `Set`: an existing key gets its reference count incremented and value
replaced in place; a new key is written at the hand after `evict`, recorded
in the map, and the hand advances one position. -/
def Cache.set (c : Cache K V) (k : K) (v : V) : Cache K V :=
  match findVal c.items k with
  | some i =>
    match ringGet c.ring i with
    | some e => { c with
        ring := c.ring.set i (some { e with referenceCount := e.referenceCount + 1, val := v }) }
    | none => c
  | none =>
    let c' := c.evict
    { c' with
      ring := c'.ring.set c'.hand (some ⟨k, v, 1⟩),
      items := (k, c'.hand) :: c'.items,
      hand := (c'.hand + 1) % c'.capacity }

/-- `Get` sets the accessed slot's reference count to 1 and returns the
value; the hand does not move. -/
def Cache.get (c : Cache K V) (k : K) : Option V × Cache K V :=
  match findVal c.items k with
  | none => (none, c)
  | some i =>
    match ringGet c.ring i with
    | some e => (some e.val, { c with ring := c.ring.set i (some { e with referenceCount := 1 }) })
    | none => (none, c)

/-- `Delete` removes the map entry and zeroes the slot's reference count,
leaving the slot to be reclaimed by a future sweep. -/
def Cache.delete (c : Cache K V) (k : K) : Cache K V :=
  match findVal c.items k with
  | none => c
  | some i =>
    { c with
      items := removeKey c.items k,
      ring := match ringGet c.ring i with
        | some e => c.ring.set i (some { e with referenceCount := 0 })
        | none => c.ring }

/-- `Len` counts map entries. -/
def Cache.len (c : Cache K V) : Nat := c.items.length

/-- The iteration of `Keys` from `head.Next()` around the ring: stop at the
first empty slot, skip entries whose reference count is non-positive. -/
def keysLoop (c : Cache K V) : List Nat → List K
  | [] => []
  | i :: rest =>
    match ringGet c.ring i with
    | none => []
    | some e => if 0 < e.referenceCount then e.key :: keysLoop c rest else keysLoop c rest

/-- `Keys` starts at the head (ring index 0): an empty head yields `[]`,
otherwise the head's key is listed unconditionally and the rest of the ring
is walked by `keysLoop`. -/
def Cache.keys (c : Cache K V) : List K :=
  match ringGet c.ring 0 with
  | none => []
  | some e => e.key :: keysLoop c (List.range' 1 (c.ring.length - 1))

end clock

/-- The Clock trace of claim C2: capacity 3, `Set 0; Set 1; Set 2; Set 3`
with no intervening `Get`. -/
def clockTraceC2 : clock.Cache Nat Nat :=
  ((((clock.newCache 3).set 0 0).set 1 1).set 2 2).set 3 3

/-- **C2, counterexample.** The claim predicts that the fourth insertion
evicts key 1 and that `Keys()` returns `[3, 2, 0]`.  The code instead keeps
key 1 (the sweep decrements every count to zero, wraps back to the starting
slot, and evicts key 0), and `Keys()` returns `[3]`. -/
theorem clock_C2_claim_false :
    ¬ (((clockTraceC2.get 1).1 = none) ∧ clockTraceC2.keys = [3, 2, 0]) := by
  decide

/-- **C2, amended.** Clock with capacity 3: inserting keys 0, 1, 2, 3 via
`Set` with no intervening `Get` leaves exactly 3 keys.  The eviction sweep
starting at the hand decrements the counts of slots 0, 1, 2 to zero, wraps
back to slot 0, and evicts key 0; keys 1, 2, 3 survive.  `Keys()` returns
`[3]`: the head slot (now holding 3) is listed unconditionally, while the
surviving slots of keys 1 and 2 have reference count 0 and are skipped. -/
theorem clock_insert_four_evicts_key0 :
    clockTraceC2.len = 3 ∧
    (clockTraceC2.get 0).1 = none ∧
    (clockTraceC2.get 1).1 = some 1 ∧
    (clockTraceC2.get 2).1 = some 2 ∧
    (clockTraceC2.get 3).1 = some 3 ∧
    clockTraceC2.keys = [3] := by
  decide

theorem findVal_mem {K V : Type} [DecidableEq K] (l : List (K × V)) (k : K) (v : V)
    (h : findVal l k = some v) : (k, v) ∈ l := by
  induction l with
  | nil => simp [findVal] at h
  | cons p rest ih =>
    obtain ⟨k', w⟩ := p
    by_cases hk : k = k'
    · simp only [findVal, if_pos hk] at h
      obtain rfl := Option.some.injEq .. ▸ h
      simp [hk, h.symm]
    · simp only [findVal, if_neg hk] at h
      exact List.mem_cons_of_mem _ (ih h)

namespace clock

variable {K V : Type}

theorem ringGet_set_self (r : List (Option (Entry K V))) (i : Nat) (x : Option (Entry K V))
    (h : i < r.length) : ringGet (r.set i x) i = x := by
  induction r generalizing i with
  | nil => simp at h
  | cons s rest ih =>
    cases i with
    | zero => rfl
    | succ j =>
      simp only [List.length_cons] at h
      exact ih j (by omega)

theorem ringGet_set_ne (r : List (Option (Entry K V))) (i j : Nat) (x : Option (Entry K V))
    (h : i ≠ j) : ringGet (r.set i x) j = ringGet r j := by
  induction r generalizing i j with
  | nil => simp [ringGet, List.set]
  | cons s rest ih =>
    cases i with
    | zero =>
      cases j with
      | zero => exact absurd rfl h
      | succ j2 => rfl
    | succ i2 =>
      cases j with
      | zero => rfl
      | succ j2 => exact ih i2 j2 (by omega)

theorem ringGet_replicate_none (n i : Nat) :
    ringGet (List.replicate n (none : Option (Entry K V))) i = none := by
  induction n generalizing i with
  | zero => cases i <;> rfl
  | succ m ih =>
    cases i with
    | zero => rfl
    | succ j => exact ih j

theorem ringGet_of_length_le (r : List (Option (Entry K V))) (i : Nat)
    (h : r.length ≤ i) : ringGet r i = none := by
  induction r generalizing i with
  | nil => cases i <;> rfl
  | cons s rest ih =>
    cases i with
    | zero => simp at h
    | succ j =>
      simp only [List.length_cons] at h
      exact ih j (by omega)

theorem ringGet_lt_length (r : List (Option (Entry K V))) (i : Nat) (e : Entry K V)
    (h : ringGet r i = some e) : i < r.length := by
  by_contra hge
  rw [ringGet_of_length_le r i (by omega)] at h
  exact Option.noConfusion h

theorem sumPosRc_decrement (r : List (Option (Entry K V))) (i : Nat) (e : Entry K V)
    (hget : ringGet r i = some e) (hpos : 0 < e.referenceCount) :
    sumPosRc (r.set i (some { e with referenceCount := e.referenceCount - 1 })) < sumPosRc r := by
  induction r generalizing i with
  | nil =>
    exact absurd hget (by simp [ringGet, List.getD])
  | cons s rest ih =>
    cases i with
    | zero =>
      have hs : s = some e := hget
      subst hs
      simp only [List.set, sumPosRc, List.map_cons, List.sum_cons]
      have h1 : (e.referenceCount - 1).toNat < e.referenceCount.toNat := by omega
      omega
    | succ j =>
      have hrec := ih j hget
      simp only [List.set, sumPosRc, List.map_cons, List.sum_cons]
      simp only [sumPosRc] at hrec
      omega

end clock

namespace clock

variable {K V : Type} [DecidableEq K]

/-- In the all-slots-occupied phase the sweep terminates within the supplied
fuel (each step decrements one positive count): it lands on some slot `j`,
removes that slot's key from the map, clears the slot, leaves the hand on it,
and only decrements reference counts elsewhere (keys and occupancy of all
other slots survive). -/
theorem evictLoop_spec (fuel : Nat) :
    ∀ (c : Cache K V),
    sumPosRc c.ring < fuel →
    (∀ i, i < c.capacity → (ringGet c.ring i).isSome = true) →
    c.ring.length = c.capacity →
    c.hand < c.capacity →
    ∃ (j : Nat) (kj : K),
      (evictLoop fuel c).capacity = c.capacity ∧
      (evictLoop fuel c).ring.length = c.capacity ∧
      (evictLoop fuel c).hand = j ∧
      j < c.capacity ∧
      (∃ e0, ringGet c.ring j = some e0 ∧ e0.key = kj) ∧
      (evictLoop fuel c).items = removeKey c.items kj ∧
      ringGet (evictLoop fuel c).ring j = none ∧
      (∀ i, i < c.capacity → i ≠ j →
        ∃ e e2, ringGet c.ring i = some e ∧
          ringGet (evictLoop fuel c).ring i = some e2 ∧ e2.key = e.key) := by
  induction fuel with
  | zero =>
    intro c hsum _ _ _
    omega
  | succ f ih =>
    intro c hsum hfull hlen hhand
    have hcap : 1 ≤ c.capacity := by omega
    have hsm := hfull c.hand hhand
    obtain ⟨e, he⟩ := Option.isSome_iff_exists.mp hsm
    have hhandlen : c.hand < c.ring.length := by omega
    by_cases hpos : 0 < e.referenceCount
    · -- decrement the current slot and advance the hand
      set c2 : Cache K V := { c with
        ring := c.ring.set c.hand (some { e with referenceCount := e.referenceCount - 1 }),
        hand := (c.hand + 1) % c.capacity } with hc2
      have hstep : evictLoop (f + 1) c = evictLoop f c2 := by
        show (match ringGet c.ring c.hand with
          | none => c
          | some e =>
            if 0 < e.referenceCount then
              evictLoop f { c with
                ring := c.ring.set c.hand (some { e with referenceCount := e.referenceCount - 1 }),
                hand := (c.hand + 1) % c.capacity }
            else
              { c with items := removeKey c.items e.key, ring := c.ring.set c.hand none })
          = evictLoop f c2
        rw [he]
        simp only [if_pos hpos, hc2]
      have hsum2 : sumPosRc c2.ring < f := by
        have := sumPosRc_decrement c.ring c.hand e he hpos
        simp only [hc2]
        omega
      have hfull2 : ∀ i, i < c2.capacity → (ringGet c2.ring i).isSome = true := by
        intro i hi
        simp only [hc2] at hi ⊢
        by_cases hih : i = c.hand
        · rw [hih, ringGet_set_self _ _ _ hhandlen]
          rfl
        · rw [ringGet_set_ne _ _ _ _ (fun hc => hih hc.symm)]
          exact hfull i hi
      have hlen2 : c2.ring.length = c2.capacity := by
        simp only [hc2, List.length_set]
        exact hlen
      have hhand2 : c2.hand < c2.capacity := by
        simp only [hc2]
        exact Nat.mod_lt _ (by omega)
      obtain ⟨j, kj, hcap2, hrlen2, hhandj, hjlt, hslotj, hitems2, hnone2, hpres2⟩ :=
        ih c2 hsum2 hfull2 hlen2 hhand2
      have hcapeq : c2.capacity = c.capacity := rfl
      rw [hstep]
      refine ⟨j, kj, by rw [hcap2, hcapeq], by rw [hrlen2, hcapeq], hhandj,
        by rw [hcapeq] at hjlt; exact hjlt, ?_, ?_, hnone2, ?_⟩
      · -- slot j in the original ring holds an entry keyed kj
        obtain ⟨e0, he0, hke0⟩ := hslotj
        by_cases hjh : j = c.hand
        · subst hjh
          rw [ringGet_set_self _ _ _ hhandlen] at he0
          refine ⟨e, he, ?_⟩
          have : ({ e with referenceCount := e.referenceCount - 1 } : Entry K V) = e0 :=
            Option.some.injEq .. ▸ he0
          rw [← hke0, ← this]
        · rw [ringGet_set_ne _ _ _ _ (fun hc => hjh hc.symm)] at he0
          exact ⟨e0, he0, hke0⟩
      · -- the deleted map key
        have : c2.items = c.items := rfl
        rw [hitems2, this]
      · -- other slots keep their keys
        intro i hi hij
        rw [← hcapeq] at hi
        obtain ⟨e1, e2, he1, he2, hk12⟩ := hpres2 i hi hij
        by_cases hih : i = c.hand
        · subst hih
          rw [ringGet_set_self _ _ _ hhandlen] at he1
          refine ⟨e, e2, he, he2, ?_⟩
          have : ({ e with referenceCount := e.referenceCount - 1 } : Entry K V) = e1 :=
            Option.some.injEq .. ▸ he1
          rw [hk12, ← this]
        · rw [ringGet_set_ne _ _ _ _ (fun hc => hih hc.symm)] at he1
          exact ⟨e1, e2, he1, he2, hk12⟩
    · -- the current slot is evictable
      have hstep : evictLoop (f + 1) c =
          { c with items := removeKey c.items e.key, ring := c.ring.set c.hand none } := by
        show (match ringGet c.ring c.hand with
          | none => c
          | some e =>
            if 0 < e.referenceCount then
              evictLoop f { c with
                ring := c.ring.set c.hand (some { e with referenceCount := e.referenceCount - 1 }),
                hand := (c.hand + 1) % c.capacity }
            else
              { c with items := removeKey c.items e.key, ring := c.ring.set c.hand none })
          = _
        rw [he]
        simp only [if_neg hpos]
      rw [hstep]
      refine ⟨c.hand, e.key, rfl, by simpa [List.length_set] using hlen, rfl, hhand,
        ⟨e, he, rfl⟩, rfl, ringGet_set_self _ _ _ hhandlen, ?_⟩
      intro i hi hij
      obtain ⟨ei, hei⟩ := Option.isSome_iff_exists.mp (hfull i hi)
      refine ⟨ei, ei, hei, ?_, rfl⟩
      rw [ringGet_set_ne _ _ _ _ (fun hc => hij hc.symm)]
      exact hei

end clock

namespace clock

variable {K V : Type} [DecidableEq K]

/-- Every map entry points at an in-range ring slot occupied by an entry
with that key. -/
def SlotInv (c : Cache K V) : Prop :=
  ∀ p ∈ c.items, p.2 < c.capacity ∧ ∃ e, ringGet c.ring p.2 = some e ∧ e.key = p.1

/-- Either every slot is occupied (the ring has filled up at least once), or
the slots strictly before the hand are occupied and the hand onwards is
empty (initial fill phase; the hand has never wrapped). -/
def Phase (c : Cache K V) : Prop :=
  (∀ i, i < c.capacity → (ringGet c.ring i).isSome = true) ∨
  ((∀ i, i < c.hand → (ringGet c.ring i).isSome = true) ∧
   (∀ i, c.hand ≤ i → ringGet c.ring i = none))

/-- Invariant of every cache state reachable from `newCache cap` (`cap ≥ 1`). -/
def Inv (c : Cache K V) : Prop :=
  1 ≤ c.capacity ∧
  c.ring.length = c.capacity ∧
  c.hand < c.capacity ∧
  (c.items.map Prod.fst).Nodup ∧
  SlotInv c ∧
  Phase c

/-- Distinct map keys sit in distinct slots, so the map size is bounded by
the number of slots. -/
theorem len_le_of_inv (c : Cache K V) (h : Inv c) : c.items.length ≤ c.capacity := by
  obtain ⟨hcap, hlen, hhand, hnodup, hslot, hphase⟩ := h
  have hitemsnodup : c.items.Nodup := hnodup.of_map
  have hsnd : (c.items.map Prod.snd).Nodup := by
    apply List.Nodup.map_on ?_ hitemsnodup
    intro p hp q hq heq
    obtain ⟨_, e1, he1, hk1⟩ := hslot p hp
    obtain ⟨_, e2, he2, hk2⟩ := hslot q hq
    rw [← heq] at he2
    rw [he1] at he2
    have he12 : e1 = e2 := Option.some_inj.mp he2
    have hfst : p.1 = q.1 := by rw [← hk1, ← hk2, he12]
    exact Prod.ext_iff.mpr ⟨hfst, heq⟩
  have hsub : (c.items.map Prod.snd).toFinset ⊆ Finset.range c.capacity := by
    intro x hx
    simp only [List.mem_toFinset, List.mem_map] at hx
    obtain ⟨p, hp, rfl⟩ := hx
    exact Finset.mem_range.mpr (hslot p hp).1
  calc c.items.length = (c.items.map Prod.snd).length := by simp
    _ = (c.items.map Prod.snd).toFinset.card := (List.toFinset_card_of_nodup hsnd).symm
    _ ≤ (Finset.range c.capacity).card := Finset.card_le_card hsub
    _ = c.capacity := Finset.card_range _

theorem clock_inv_get (c : Cache K V) (k : K) (h : Inv c) :
    Inv ((c.get k).2) ∧ ((c.get k).2).capacity = c.capacity := by
  obtain ⟨hcap, hlen, hhand, hnodup, hslot, hphase⟩ := h
  cases hf : findVal c.items k with
  | none =>
    have hres : (c.get k).2 = c := by
      simp only [Cache.get, hf]
    rw [hres]
    exact ⟨⟨hcap, hlen, hhand, hnodup, hslot, hphase⟩, rfl⟩
  | some i =>
    cases hg : ringGet c.ring i with
    | none =>
      have hres : (c.get k).2 = c := by
        simp only [Cache.get, hf, hg]
      rw [hres]
      exact ⟨⟨hcap, hlen, hhand, hnodup, hslot, hphase⟩, rfl⟩
    | some e =>
      have hres : (c.get k).2 =
          { c with ring := c.ring.set i (some { e with referenceCount := 1 }) } := by
        simp only [Cache.get, hf, hg]
      have hilen : i < c.ring.length := ringGet_lt_length c.ring i e hg
      rw [hres]
      refine ⟨⟨hcap, by simpa [List.length_set] using hlen, hhand, hnodup, ?_, ?_⟩, rfl⟩
      · intro p hp
        obtain ⟨hip, e1, he1, hk1⟩ := hslot p hp
        refine ⟨hip, ?_⟩
        by_cases hpi : p.2 = i
        · rw [hpi, ringGet_set_self _ _ _ hilen]
          rw [hpi] at he1
          rw [hg] at he1
          have he1e : e = e1 := Option.some_inj.mp he1
          exact ⟨_, rfl, by rw [← hk1, ← he1e]⟩
        · rw [ringGet_set_ne _ _ _ _ (fun hc => hpi hc.symm)]
          exact ⟨e1, he1, hk1⟩
      · rcases hphase with hfull | ⟨hpre, hpost⟩
        · left
          intro i2 hi2
          by_cases hii : i2 = i
          · rw [hii, ringGet_set_self _ _ _ hilen]
            rfl
          · rw [ringGet_set_ne _ _ _ _ (fun hc => hii hc.symm)]
            exact hfull i2 hi2
        · right
          have hihand : i < c.hand := by
            by_contra hge
            rw [hpost i (by omega)] at hg
            exact Option.noConfusion hg
          constructor
          · intro i2 hi2
            by_cases hii : i2 = i
            · rw [hii, ringGet_set_self _ _ _ hilen]
              rfl
            · rw [ringGet_set_ne _ _ _ _ (fun hc => hii hc.symm)]
              exact hpre i2 hi2
          · intro i2 hi2
            have hi2c : c.hand ≤ i2 := hi2
            rw [ringGet_set_ne _ _ _ _ (by omega : i ≠ i2)]
            exact hpost i2 hi2c

theorem clock_inv_delete (c : Cache K V) (k : K) (h : Inv c) :
    Inv (c.delete k) ∧ (c.delete k).capacity = c.capacity := by
  obtain ⟨hcap, hlen, hhand, hnodup, hslot, hphase⟩ := h
  cases hf : findVal c.items k with
  | none =>
    have hres : c.delete k = c := by
      simp only [Cache.delete, hf]
    rw [hres]
    exact ⟨⟨hcap, hlen, hhand, hnodup, hslot, hphase⟩, rfl⟩
  | some i =>
    cases hg : ringGet c.ring i with
    | none =>
      have hres : c.delete k = { c with items := removeKey c.items k } := by
        simp only [Cache.delete, hf, hg]
      rw [hres]
      refine ⟨⟨hcap, hlen, hhand, nodup_removeKey _ _ hnodup, ?_, hphase⟩, rfl⟩
      intro p hp
      exact hslot p (mem_removeKey _ _ _ hp)
    | some e =>
      have hres : c.delete k = { c with
          items := removeKey c.items k,
          ring := c.ring.set i (some { e with referenceCount := 0 }) } := by
        simp only [Cache.delete, hf, hg]
      have hilen : i < c.ring.length := ringGet_lt_length c.ring i e hg
      rw [hres]
      refine ⟨⟨hcap, by simpa [List.length_set] using hlen, hhand,
        nodup_removeKey _ _ hnodup, ?_, ?_⟩, rfl⟩
      · intro p hp
        obtain ⟨hip, e1, he1, hk1⟩ := hslot p (mem_removeKey _ _ _ hp)
        refine ⟨hip, ?_⟩
        by_cases hpi : p.2 = i
        · rw [hpi, ringGet_set_self _ _ _ hilen]
          rw [hpi] at he1
          rw [hg] at he1
          have he1e : e = e1 := Option.some_inj.mp he1
          exact ⟨_, rfl, by rw [← hk1, ← he1e]⟩
        · rw [ringGet_set_ne _ _ _ _ (fun hc => hpi hc.symm)]
          exact ⟨e1, he1, hk1⟩
      · rcases hphase with hfull | ⟨hpre, hpost⟩
        · left
          intro i2 hi2
          by_cases hii : i2 = i
          · rw [hii, ringGet_set_self _ _ _ hilen]
            rfl
          · rw [ringGet_set_ne _ _ _ _ (fun hc => hii hc.symm)]
            exact hfull i2 hi2
        · right
          have hihand : i < c.hand := by
            by_contra hge
            rw [hpost i (by omega)] at hg
            exact Option.noConfusion hg
          constructor
          · intro i2 hi2
            by_cases hii : i2 = i
            · rw [hii, ringGet_set_self _ _ _ hilen]
              rfl
            · rw [ringGet_set_ne _ _ _ _ (fun hc => hii hc.symm)]
              exact hpre i2 hi2
          · intro i2 hi2
            have hi2c : c.hand ≤ i2 := hi2
            rw [ringGet_set_ne _ _ _ _ (by omega : i ≠ i2)]
            exact hpost i2 hi2c

end clock

namespace clock

variable {K V : Type} [DecidableEq K]

theorem clock_inv_set (c : Cache K V) (k : K) (v : V) (h : Inv c) :
    Inv (c.set k v) ∧ (c.set k v).capacity = c.capacity := by
  obtain ⟨hcap, hlen, hhand, hnodup, hslot, hphase⟩ := h
  cases hf : findVal c.items k with
  | some i =>
    -- existing key: in-place reference-count increment and value replacement
    cases hg : ringGet c.ring i with
    | none =>
      have hres : c.set k v = c := by
        simp only [Cache.set, hf, hg]
      rw [hres]
      exact ⟨⟨hcap, hlen, hhand, hnodup, hslot, hphase⟩, rfl⟩
    | some e =>
      have hres : c.set k v = { c with
          ring := c.ring.set i (some { e with referenceCount := e.referenceCount + 1, val := v }) } := by
        simp only [Cache.set, hf, hg]
      have hilen : i < c.ring.length := ringGet_lt_length c.ring i e hg
      rw [hres]
      refine ⟨⟨hcap, by simpa [List.length_set] using hlen, hhand, hnodup, ?_, ?_⟩, rfl⟩
      · intro p hp
        obtain ⟨hip, e1, he1, hk1⟩ := hslot p hp
        refine ⟨hip, ?_⟩
        by_cases hpi : p.2 = i
        · rw [hpi, ringGet_set_self _ _ _ hilen]
          rw [hpi] at he1
          rw [hg] at he1
          have he1e : e = e1 := Option.some_inj.mp he1
          exact ⟨_, rfl, by rw [← hk1, ← he1e]⟩
        · rw [ringGet_set_ne _ _ _ _ (fun hc => hpi hc.symm)]
          exact ⟨e1, he1, hk1⟩
      · rcases hphase with hfull | ⟨hpre, hpost⟩
        · left
          intro i2 hi2
          by_cases hii : i2 = i
          · rw [hii, ringGet_set_self _ _ _ hilen]
            rfl
          · rw [ringGet_set_ne _ _ _ _ (fun hc => hii hc.symm)]
            exact hfull i2 hi2
        · right
          have hihand : i < c.hand := by
            by_contra hge
            rw [hpost i (by omega)] at hg
            exact Option.noConfusion hg
          constructor
          · intro i2 hi2
            have hi2c : i2 < c.hand := hi2
            by_cases hii : i2 = i
            · rw [hii, ringGet_set_self _ _ _ hilen]
              rfl
            · rw [ringGet_set_ne _ _ _ _ (fun hc => hii hc.symm)]
              exact hpre i2 hi2c
          · intro i2 hi2
            have hi2c : c.hand ≤ i2 := hi2
            rw [ringGet_set_ne _ _ _ _ (by omega : i ≠ i2)]
            exact hpost i2 hi2c
  | none =>
    -- new key
    have hknotin : k ∉ c.items.map Prod.fst := (findVal_none_iff _ _).mp hf
    rcases hphase with hfull | ⟨hpre, hpost⟩
    · -- all slots occupied: the sweep evicts exactly one slot
      have hfull2 : ∀ i, i < c.capacity → (ringGet c.ring i).isSome = true := hfull
      have hh : (ringGet c.ring c.hand).isSome = true := hfull c.hand hhand
      obtain ⟨e0, he0⟩ := Option.isSome_iff_exists.mp hh
      have hevict : c.evict = evictLoop (sumPosRc c.ring + 1) c := by
        simp only [Cache.evict, he0]
      obtain ⟨j, kj, hcap2, hrlen2, hhandj, hjlt, hslotj, hitems2, hnone2, hpres2⟩ :=
        evictLoop_spec (sumPosRc c.ring + 1) c (by omega) hfull2 hlen hhand
      rw [← hevict] at hcap2 hrlen2 hhandj hitems2 hnone2 hpres2
      have hres : c.set k v =
          (⟨(c.evict).ring.set j (some ⟨k, v, 1⟩),
            (j + 1) % c.capacity,
            (k, j) :: (c.evict).items,
            c.capacity⟩ : Cache K V) := by
        have hexp : c.set k v =
            (⟨(c.evict).ring.set (c.evict).hand (some ⟨k, v, 1⟩),
              ((c.evict).hand + 1) % (c.evict).capacity,
              (k, (c.evict).hand) :: (c.evict).items,
              (c.evict).capacity⟩ : Cache K V) := by
          simp only [Cache.set, hf]
        rw [hexp, hhandj, hcap2]
      rw [hres]
      have hjlen2 : j < (c.evict).ring.length := by omega
      have hknotin2 : k ∉ ((c.evict).items.map Prod.fst) := by
        rw [hitems2]
        intro hc
        exact hknotin (map_fst_removeKey_subset _ _ hc)
      refine ⟨⟨?_, ?_, ?_, ?_, ?_, ?_⟩, ?_⟩
      · show 1 ≤ c.capacity
        omega
      · show ((c.evict).ring.set j _).length = c.capacity
        simp only [List.length_set]
        omega
      · show (j + 1) % c.capacity < c.capacity
        exact Nat.mod_lt _ (by omega)
      · show ((((k, j) :: (c.evict).items)).map Prod.fst).Nodup
        simp only [List.map_cons, List.nodup_cons]
        refine ⟨hknotin2, ?_⟩
        rw [hitems2]
        exact nodup_removeKey _ _ hnodup
      · -- SlotInv of the new state
        intro p hp
        have hp2 : p ∈ (k, j) :: (c.evict).items := hp
        rcases List.mem_cons.mp hp2 with rfl | hpold
        · refine ⟨hjlt, ?_⟩
          show ∃ e, ringGet ((c.evict).ring.set j _) j = some e ∧ _
          rw [ringGet_set_self _ _ _ hjlen2]
          exact ⟨_, rfl, rfl⟩
        · rw [hitems2] at hpold
          have hpc : p ∈ c.items := mem_removeKey _ _ _ hpold
          obtain ⟨hip, e1, he1, hk1⟩ := hslot p hpc
          have hpj : p.2 ≠ j := by
            intro hpj
            obtain ⟨ej0, hej0, hkj0⟩ := hslotj
            rw [hpj] at he1
            rw [hej0] at he1
            have hee : ej0 = e1 := Option.some_inj.mp he1
            have hp1 : p.1 = kj := by rw [← hk1, ← hee, hkj0]
            have hmm : p.1 ∈ (removeKey c.items kj).map Prod.fst :=
              List.mem_map.mpr ⟨p, hpold, rfl⟩
            rw [hp1] at hmm
            exact not_mem_map_fst_removeKey c.items kj hnodup hmm
          obtain ⟨e2, e3, he2, he3, hk23⟩ := hpres2 p.2 hip hpj
          refine ⟨hip, ?_⟩
          show ∃ e, ringGet ((c.evict).ring.set j _) p.2 = some e ∧ _
          rw [ringGet_set_ne _ _ _ _ (Ne.symm hpj)]
          refine ⟨e3, he3, ?_⟩
          rw [hk23]
          rw [he1] at he2
          rw [Option.some_inj.mp he2] at hk1
          exact hk1
      · -- all slots stay occupied
        left
        intro i2 hi2
        have hi2c : i2 < c.capacity := hi2
        show (ringGet ((c.evict).ring.set j _) i2).isSome = true
        by_cases hij : i2 = j
        · rw [hij, ringGet_set_self _ _ _ hjlen2]
          rfl
        · rw [ringGet_set_ne _ _ _ _ (fun hc => hij hc.symm)]
          obtain ⟨e2, e3, he2, he3, hk23⟩ := hpres2 i2 hi2c hij
          rw [he3]
          rfl
      · show c.capacity = c.capacity
        rfl
    · -- fill phase: the hand is on an empty slot, `evict` does nothing
      have hh : ringGet c.ring c.hand = none := hpost c.hand (le_refl _)
      have hevict : c.evict = c := by
        simp only [Cache.evict, hh]
      have hres : c.set k v = { c with
          ring := c.ring.set c.hand (some ⟨k, v, 1⟩),
          items := (k, c.hand) :: c.items,
          hand := (c.hand + 1) % c.capacity } := by
        simp only [Cache.set, hf, hevict]
      rw [hres]
      have hhandlen : c.hand < c.ring.length := by omega
      refine ⟨⟨hcap, by simpa [List.length_set] using hlen, Nat.mod_lt _ (by omega),
        ?_, ?_, ?_⟩, rfl⟩
      · simp only [List.map_cons, List.nodup_cons]
        exact ⟨hknotin, hnodup⟩
      · -- SlotInv
        intro p hp
        have hp2 : p ∈ (k, c.hand) :: c.items := hp
        rcases List.mem_cons.mp hp2 with rfl | hpold
        · refine ⟨hhand, ?_⟩
          show ∃ e, ringGet (c.ring.set c.hand _) c.hand = some e ∧ _
          rw [ringGet_set_self _ _ _ hhandlen]
          exact ⟨_, rfl, rfl⟩
        · obtain ⟨hip, e1, he1, hk1⟩ := hslot p hpold
          have hpj : p.2 ≠ c.hand := by
            intro hpj
            rw [hpj, hh] at he1
            exact Option.noConfusion he1
          refine ⟨hip, ?_⟩
          show ∃ e, ringGet (c.ring.set c.hand _) p.2 = some e ∧ _
          rw [ringGet_set_ne _ _ _ _ (fun hc => hpj hc.symm)]
          exact ⟨e1, he1, hk1⟩
      · -- Phase
        by_cases hwrap : c.hand + 1 = c.capacity
        · left
          intro i2 hi2
          have hi2c : i2 < c.capacity := hi2
          show (ringGet (c.ring.set c.hand _) i2).isSome = true
          by_cases hij : i2 = c.hand
          · rw [hij, ringGet_set_self _ _ _ hhandlen]
            rfl
          · rw [ringGet_set_ne _ _ _ _ (fun hc => hij hc.symm)]
            exact hpre i2 (by omega)
        · right
          constructor
          · intro i2 hi2
            have hi2c : i2 < (c.hand + 1) % c.capacity := hi2
            rw [Nat.mod_eq_of_lt (by omega)] at hi2c
            show (ringGet (c.ring.set c.hand _) i2).isSome = true
            by_cases hij : i2 = c.hand
            · rw [hij, ringGet_set_self _ _ _ hhandlen]
              rfl
            · rw [ringGet_set_ne _ _ _ _ (fun hc => hij hc.symm)]
              exact hpre i2 (by omega)
          · intro i2 hi2
            have hi2c : (c.hand + 1) % c.capacity ≤ i2 := hi2
            rw [Nat.mod_eq_of_lt (by omega)] at hi2c
            show ringGet (c.ring.set c.hand _) i2 = none
            rw [ringGet_set_ne _ _ _ _ (by omega : c.hand ≠ i2)]
            exact hpost i2 (by omega)

end clock

/-! ## LFU policy (`policy/lfu/lfu.go`, `policy/lfu/priority_queue.go`)

The heap is the Go slice `priorityQueue`, modelled as a list in slice order.
Go entries carry an `Index` back-pointer that `Swap`/`Push`/`Pop` keep equal
to the entry's slice position; the model therefore locates the map's entry
pointer by the position of its key in the slice (`idxOfKey`) instead of
storing indices.  `container/heap`'s `up`/`down` are transcribed with a fuel
argument bounding the iteration count (each pass moves strictly towards a
leaf or the root, so a fuel of the slice length always suffices). -/

theorem get?_set_self {A : Type} (l : List A) (i : Nat) (a : A) (h : i < l.length) :
    (l.set i a).get? i = some a := by
  induction l generalizing i with
  | nil => simp at h
  | cons x rest ih =>
    cases i with
    | zero => rfl
    | succ j =>
      simp only [List.length_cons] at h
      exact ih j (by omega)

theorem get?_set_ne {A : Type} (l : List A) (i j : Nat) (a : A) (h : i ≠ j) :
    (l.set i a).get? j = l.get? j := by
  induction l generalizing i j with
  | nil => simp
  | cons x rest ih =>
    cases i with
    | zero =>
      cases j with
      | zero => exact absurd rfl h
      | succ j2 => rfl
    | succ i2 =>
      cases j with
      | zero => rfl
      | succ j2 => exact ih i2 j2 (by omega)

/-- `Swap` of the Go slice (the `Index` field updates are implicit: positions
are the indices in this model).  Out-of-range indices leave the list
unchanged (Go would panic; the caller never does that). -/
def swapList {A : Type} (q : List A) (i j : Nat) : List A :=
  match q.get? i, q.get? j with
  | some a, some b => (q.set i b).set j a
  | _, _ => q

theorem cons_set_perm {A : Type} (l : List A) (m : Nat) (b x : A)
    (h : l.get? m = some b) : (b :: l.set m x).Perm (x :: l) := by
  induction l generalizing m with
  | nil => simp at h
  | cons y t ih =>
    cases m with
    | zero =>
      have hb : y = b := Option.some_inj.mp h
      subst hb
      exact List.Perm.swap x y t
    | succ n =>
      have step1 : (b :: y :: t.set n x).Perm (y :: b :: t.set n x) :=
        List.Perm.swap y b (t.set n x)
      have step2 : (y :: b :: t.set n x).Perm (y :: x :: t) :=
        List.Perm.cons y (ih n h)
      have step3 : (y :: x :: t).Perm (x :: y :: t) := List.Perm.swap x y t
      exact (step1.trans step2).trans step3

theorem set_set_perm {A : Type} (q : List A) (i j : Nat) (a b : A)
    (ha : q.get? i = some a) (hb : q.get? j = some b) :
    ((q.set i b).set j a).Perm q := by
  induction q generalizing i j with
  | nil => simp at ha
  | cons x rest ih =>
    cases i with
    | zero =>
      have hxa : x = a := Option.some_inj.mp ha
      subst hxa
      cases j with
      | zero => simp
      | succ m =>
        have : ((x :: rest).set 0 b).set (m + 1) x = b :: rest.set m x := rfl
        rw [this]
        exact cons_set_perm rest m b x hb
    | succ n =>
      cases j with
      | zero =>
        have hxb : x = b := Option.some_inj.mp hb
        subst hxb
        have : ((x :: rest).set (n + 1) x).set 0 a = a :: rest.set n x := rfl
        rw [this]
        exact cons_set_perm rest n a x ha
      | succ m =>
        exact List.Perm.cons x (ih n m ha hb)

theorem swapList_perm {A : Type} (q : List A) (i j : Nat) : (swapList q i j).Perm q := by
  unfold swapList
  cases ha : q.get? i with
  | none => exact List.Perm.refl q
  | some a =>
    cases hb : q.get? j with
    | none => exact List.Perm.refl q
    | some b => exact set_set_perm q i j a b ha hb

theorem swapList_length {A : Type} (q : List A) (i j : Nat) :
    (swapList q i j).length = q.length := (swapList_perm q i j).length_eq

theorem swapList_get?_ne {A : Type} (q : List A) (i j m : Nat)
    (hi : i ≠ m) (hj : j ≠ m) : (swapList q i j).get? m = q.get? m := by
  unfold swapList
  cases ha : q.get? i with
  | none => rfl
  | some a =>
    cases hb : q.get? j with
    | none => rfl
    | some b => rw [get?_set_ne _ _ _ _ hj, get?_set_ne _ _ _ _ hi]

theorem swapList_get?_snd {A : Type} (q : List A) (i j : Nat) (a b : A)
    (ha : q.get? i = some a) (hb : q.get? j = some b) :
    (swapList q i j).get? j = some a := by
  unfold swapList
  rw [ha, hb]
  have hjlen : j < q.length := by
    by_contra hge
    rw [List.get?_eq_none.mpr (by omega)] at hb
    exact Option.noConfusion hb
  exact get?_set_self _ _ _ (by simpa using hjlen)

namespace lfu

structure Entry (K V : Type) where
  key : K
  val : V
  referenceCount : Int
  referencedAt : Nat

variable {K V : Type} [DecidableEq K]

/-- `priorityQueue.Less`: ascending reference count, ties broken by the
older `referencedAt` (the Go `time.Time` is modelled as a monotone tick). -/
def less (q : List (Entry K V)) (i j : Nat) : Bool :=
  match q.get? i, q.get? j with
  | some a, some b =>
    if a.referenceCount = b.referenceCount then decide (a.referencedAt < b.referencedAt)
    else decide (a.referenceCount < b.referenceCount)
  | _, _ => false

/-- `container/heap`'s `down` loop: sift the element at `i` down within the
first `n` elements; returns the final index alongside the queue. -/
def downLoop : Nat → List (Entry K V) → Nat → Nat → List (Entry K V) × Nat
  | 0, q, i, _ => (q, i)
  | fuel + 1, q, i, n =>
    let j1 := 2 * i + 1
    if j1 ≥ n then (q, i)
    else
      let j := if j1 + 1 < n ∧ less q (j1 + 1) j1 then j1 + 1 else j1
      if less q j i then downLoop fuel (swapList q i j) j n
      else (q, i)

/-- `container/heap`'s `up` loop: sift the element at `j` towards the root. -/
def upLoop : Nat → List (Entry K V) → Nat → List (Entry K V)
  | 0, q, _ => q
  | fuel + 1, q, j =>
    let i := (j - 1) / 2
    if i = j ∨ ¬ less q j i then q
    else upLoop fuel (swapList q i j) i

/-- `heap.Push`: append (the interface `Push`), then `up` from the last index. -/
def heapPush (q : List (Entry K V)) (e : Entry K V) : List (Entry K V) :=
  upLoop (q.length + 1) (q ++ [e]) q.length

/-- `heap.Fix(i)`: `down(i, len)`, and when the element did not move, `up(i)`. -/
def heapFix (q : List (Entry K V)) (i : Nat) : List (Entry K V) :=
  let d := downLoop q.length q i q.length
  if d.2 > i then d.1 else upLoop q.length d.1 i

/-- `heap.Pop`: swap the root with the last element, `down(0, len-1)`, then
the interface `Pop` removes and returns the last element.  Popping an empty
queue would panic in Go; the model returns `none`. -/
def heapPop (q : List (Entry K V)) : Option (Entry K V) × List (Entry K V) :=
  match q with
  | [] => (none, [])
  | _ :: _ =>
    let n := q.length - 1
    let q1 := swapList q 0 n
    let q2 := (downLoop q.length q1 0 n).1
    (q2.getLast?, q2.dropLast)

/-- `heap.Remove(i)`: swap `i` with the last element, re-heapify below the
shortened prefix, then the interface `Pop` removes the last element. -/
def heapRemove (q : List (Entry K V)) (i : Nat) : Option (Entry K V) × List (Entry K V) :=
  match q with
  | [] => (none, [])
  | _ :: _ =>
    let n := q.length - 1
    let q1 :=
      if n ≠ i then
        let q0 := swapList q i n
        let d := downLoop q.length q0 i n
        if d.2 > i then d.1 else upLoop q.length d.1 i
      else q
    (q1.getLast?, q1.dropLast)

theorem downLoop_perm (fuel : Nat) :
    ∀ (q : List (Entry K V)) (i n : Nat), ((downLoop fuel q i n).1).Perm q := by
  induction fuel with
  | zero => intro q i n; exact List.Perm.refl q
  | succ f ih =>
    intro q i n
    show (downLoop (f + 1) q i n).1.Perm q
    unfold downLoop
    by_cases h1 : 2 * i + 1 ≥ n
    · rw [if_pos h1]
    · rw [if_neg h1]
      by_cases h2 : less q (if 2 * i + 1 + 1 < n ∧ less q (2 * i + 1 + 1) (2 * i + 1)
          then 2 * i + 1 + 1 else 2 * i + 1) i
      · rw [if_pos h2]
        exact (ih _ _ _).trans (swapList_perm _ _ _)
      · rw [if_neg h2]

theorem upLoop_perm (fuel : Nat) :
    ∀ (q : List (Entry K V)) (j : Nat), (upLoop fuel q j).Perm q := by
  induction fuel with
  | zero => intro q j; exact List.Perm.refl q
  | succ f ih =>
    intro q j
    show (upLoop (f + 1) q j).Perm q
    unfold upLoop
    by_cases h1 : (j - 1) / 2 = j ∨ ¬ less q j ((j - 1) / 2)
    · rw [if_pos h1]
    · rw [if_neg h1]
      exact (ih _ _).trans (swapList_perm _ _ _)

theorem heapPush_key_perm (q : List (Entry K V)) (e : Entry K V) :
    ((heapPush q e).map Entry.key).Perm (e.key :: q.map Entry.key) := by
  have h1 : (heapPush q e).Perm (q ++ [e]) := upLoop_perm _ _ _
  have h2 : ((heapPush q e).map Entry.key).Perm ((q ++ [e]).map Entry.key) := h1.map _
  have h3 : (q ++ [e]).map Entry.key = q.map Entry.key ++ [e.key] := by simp
  rw [h3] at h2
  exact h2.trans (List.perm_append_singleton _ _)

theorem downLoop_get?_ge (fuel : Nat) :
    ∀ (q : List (Entry K V)) (i n m : Nat), n ≤ m →
    ((downLoop fuel q i n).1).get? m = q.get? m := by
  induction fuel with
  | zero => intro q i n m _; rfl
  | succ f ih =>
    intro q i n m hm
    show (downLoop (f + 1) q i n).1.get? m = q.get? m
    unfold downLoop
    by_cases h1 : 2 * i + 1 ≥ n
    · rw [if_pos h1]
    · rw [if_neg h1]
      set j := if 2 * i + 1 + 1 < n ∧ less q (2 * i + 1 + 1) (2 * i + 1)
          then 2 * i + 1 + 1 else 2 * i + 1 with hj
      have hjn : j < n := by
        rw [hj]
        split
        · omega
        · omega
      have hin : i < n := by omega
      by_cases h2 : less q j i
      · rw [if_pos h2]
        rw [ih _ _ _ _ hm]
        exact swapList_get?_ne q i j m (by omega) (by omega)
      · rw [if_neg h2]

theorem upLoop_get?_gt (fuel : Nat) :
    ∀ (q : List (Entry K V)) (j m : Nat), j < m →
    (upLoop fuel q j).get? m = q.get? m := by
  induction fuel with
  | zero => intro q j m _; rfl
  | succ f ih =>
    intro q j m hm
    show (upLoop (f + 1) q j).get? m = q.get? m
    unfold upLoop
    by_cases h1 : (j - 1) / 2 = j ∨ ¬ less q j ((j - 1) / 2)
    · rw [if_pos h1]
    · rw [if_neg h1]
      push_neg at h1
      obtain ⟨hne, _⟩ := h1
      have hij : (j - 1) / 2 < j := by omega
      rw [ih _ _ _ (by omega)]
      exact swapList_get?_ne q _ j m (by omega) (by omega)

end lfu

theorem getLast?_eq_get?_pred {A : Type} :
    ∀ (l : List A), l ≠ [] → l.getLast? = l.get? (l.length - 1)
  | [], h => absurd rfl h
  | [x], _ => rfl
  | x :: y :: t, _ => by
    rw [List.getLast?_cons_cons]
    have := getLast?_eq_get?_pred (y :: t) (by simp)
    rw [this]
    simp only [List.length_cons]
    rfl

theorem dropLast_append_getLast?_eq {A : Type} (l : List A) (last : A)
    (h : l.getLast? = some last) : l.dropLast ++ [last] = l := by
  cases l with
  | nil => simp at h
  | cons x rest =>
    have hne : x :: rest ≠ [] := by simp
    have := List.dropLast_append_getLast hne
    rw [List.getLast?_eq_getLast _ hne] at h
    rw [Option.some_inj.mp h] at this
    exact this

namespace lfu

variable {K V : Type} [DecidableEq K]

theorem heapPop_spec (q : List (Entry K V)) (hne : q ≠ []) :
    ∃ ev q', heapPop q = (some ev, q') ∧
      (ev.key :: q'.map Entry.key).Perm (q.map Entry.key) := by
  cases hq : q with
  | nil => exact absurd hq hne
  | cons x rest =>
    subst hq
    set q2 := (downLoop (x :: rest).length
      (swapList (x :: rest) 0 ((x :: rest).length - 1)) 0 ((x :: rest).length - 1)).1 with hq2
    have hperm : q2.Perm (x :: rest) :=
      (downLoop_perm _ _ _ _).trans (swapList_perm _ _ _)
    have hq2ne : q2 ≠ [] := by
      intro hc
      have hlen := hperm.length_eq
      rw [hc] at hlen
      simp at hlen
    have hq2pos : 0 < q2.length := by
      have := hperm.length_eq
      simp [this]
    obtain ⟨last, hlast⟩ : ∃ y, q2.getLast? = some y := by
      rw [getLast?_eq_get?_pred q2 hq2ne]
      cases hg : q2.get? (q2.length - 1) with
      | none =>
        rw [List.get?_eq_none] at hg
        omega
      | some y => exact ⟨y, rfl⟩
    refine ⟨last, q2.dropLast, ?_, ?_⟩
    · show heapPop (x :: rest) = _
      unfold heapPop
      simp only [← hq2, hlast]
    · have hsplit := dropLast_append_getLast?_eq q2 last hlast
      have hkeys : q2.map Entry.key = (q2.dropLast).map Entry.key ++ [last.key] := by
        conv_lhs => rw [← hsplit]
        simp
      have h1 : (last.key :: (q2.dropLast).map Entry.key).Perm (q2.map Entry.key) := by
        rw [hkeys]
        exact (List.perm_append_singleton _ _).symm
      exact h1.trans (hperm.map _)

theorem heapRemove_spec (q : List (Entry K V)) (i : Nat) (e : Entry K V)
    (hget : q.get? i = some e) :
    ∃ q', heapRemove q i = (some e, q') ∧
      (e.key :: q'.map Entry.key).Perm (q.map Entry.key) := by
  have hilen : i < q.length := by
    by_contra hge
    rw [List.get?_eq_none.mpr (by omega)] at hget
    exact Option.noConfusion hget
  cases hq : q with
  | nil => subst hq; simp at hilen
  | cons x rest =>
    subst hq
    set q := x :: rest with hqdef
    set n := q.length - 1 with hn
    by_cases hni : n ≠ i
    · have hiln : i < n := by omega
      obtain ⟨b, hb⟩ : ∃ y, q.get? n = some y := by
        cases hg : q.get? n with
        | none =>
          rw [List.get?_eq_none] at hg
          exact absurd hg (by omega)
        | some y => exact ⟨y, rfl⟩
      set q0 := swapList q i n with hq0
      have hq0n : q0.get? n = some e := swapList_get?_snd q i n e b hget hb
      set d := downLoop q.length q0 i n with hd
      have hdn : d.1.get? n = some e := by
        rw [hd, downLoop_get?_ge _ _ _ _ _ (le_refl n)]
        exact hq0n
      have hdperm : d.1.Perm q := (downLoop_perm _ _ _ _).trans (swapList_perm _ _ _)
      set q1 := if d.2 > i then d.1 else upLoop q.length d.1 i with hq1
      have hq1n : q1.get? n = some e := by
        rw [hq1]
        split
        · exact hdn
        · rw [upLoop_get?_gt _ _ _ _ hiln]
          exact hdn
      have hq1perm : q1.Perm q := by
        rw [hq1]
        split
        · exact hdperm
        · exact (upLoop_perm _ _ _).trans hdperm
      have hq1len : q1.length = q.length := hq1perm.length_eq
      have hq1ne : q1 ≠ [] := by
        intro hc
        rw [hc] at hq1len
        simp [hqdef] at hq1len
      have hq1last : q1.getLast? = some e := by
        rw [getLast?_eq_get?_pred q1 hq1ne, hq1len, ← hn]
        exact hq1n
      refine ⟨q1.dropLast, ?_, ?_⟩
      · show heapRemove q i = _
        unfold heapRemove
        rw [hqdef]
        simp only [← hqdef, ← hn, if_pos hni, ← hq0, ← hd, ← hq1, hq1last]
      · have hsplit := dropLast_append_getLast?_eq q1 e hq1last
        have hkeys : q1.map Entry.key = (q1.dropLast).map Entry.key ++ [e.key] := by
          conv_lhs => rw [← hsplit]
          simp
        have h1 : (e.key :: (q1.dropLast).map Entry.key).Perm (q1.map Entry.key) := by
          rw [hkeys]
          exact (List.perm_append_singleton _ _).symm
        exact h1.trans (hq1perm.map _)
    · push_neg at hni
      have hqlast : q.getLast? = some e := by
        rw [getLast?_eq_get?_pred q (by rw [hqdef]; simp), ← hn, hni]
        exact hget
      refine ⟨q.dropLast, ?_, ?_⟩
      · show heapRemove q i = _
        unfold heapRemove
        rw [hqdef]
        simp only [← hqdef, ← hn, hni, if_neg (by omega : ¬ i ≠ i), hqlast]
      · have hsplit := dropLast_append_getLast?_eq q e hqlast
        have hkeys : q.map Entry.key = (q.dropLast).map Entry.key ++ [e.key] := by
          conv_lhs => rw [← hsplit]
          simp
        have h1 : (e.key :: (q.dropLast).map Entry.key).Perm (q.map Entry.key) := by
          rw [hkeys]
          exact (List.perm_append_singleton _ _).symm
        exact h1

end lfu

namespace lfu

variable {K V : Type} [DecidableEq K]

/-- Position of the entry holding key `k` (the Go map's `*entry` pointer:
its `Index` field always equals the entry's heap position). -/
def idxOfKey : List (Entry K V) → K → Nat
  | [], _ => 0
  | e :: rest, k => if e.key = k then 0 else idxOfKey rest k + 1

theorem idxOfKey_spec (q : List (Entry K V)) (k : K) (hmem : k ∈ q.map Entry.key) :
    ∃ e, q.get? (idxOfKey q k) = some e ∧ e.key = k := by
  induction q with
  | nil => simp at hmem
  | cons x rest ih =>
    by_cases hx : x.key = k
    · exact ⟨x, by simp [idxOfKey, hx], hx⟩
    · have hmem2 : k ∈ rest.map Entry.key := by
        simp only [List.map_cons, List.mem_cons] at hmem
        rcases hmem with h | h
        · exact absurd h.symm hx
        · exact h
      obtain ⟨e, he, hk⟩ := ih hmem2
      exact ⟨e, by simpa [idxOfKey, hx] using he, hk⟩

/-- In-place mutation of the entry at index `i` (through the aliased map
pointer in Go). -/
def modifyAt (q : List (Entry K V)) (i : Nat) (f : Entry K V → Entry K V) :
    List (Entry K V) :=
  match q.get? i with
  | some e => q.set i (f e)
  | none => q

theorem modifyAt_map_key (q : List (Entry K V)) (i : Nat) (f : Entry K V → Entry K V)
    (hf : ∀ e, (f e).key = e.key) : (modifyAt q i f).map Entry.key = q.map Entry.key := by
  unfold modifyAt
  cases hg : q.get? i with
  | none => rfl
  | some e =>
    induction q generalizing i with
    | nil => simp at hg
    | cons x rest ih =>
      cases i with
      | zero =>
        have hx : x = e := Option.some_inj.mp hg
        subst hx
        simp [hf]
      | succ j =>
        simp only [List.set, List.map_cons]
        rw [ih j hg]

theorem heapFix_perm (q : List (Entry K V)) (i : Nat) : (heapFix q i).Perm q := by
  simp only [heapFix]
  split
  · exact downLoop_perm _ _ _ _
  · exact (upLoop_perm _ _ _).trans (downLoop_perm _ _ _ _)

/-- `newEntry`: the initial reference count comes from
`policyutil.GetReferenceCount` (`grc`), the capability probe that defaults
to 1 for values without a `GetReferenceCount() int` method. -/
def newEntry (grc : V → Int) (k : K) (v : V) (now : Nat) : Entry K V :=
  ⟨k, v, grc v, now⟩

/-- `entry.referenced()`. -/
def referenced (now : Nat) (e : Entry K V) : Entry K V :=
  { e with referenceCount := e.referenceCount + 1, referencedAt := now }

/-- `priorityQueue.update`: replace the value, mark referenced, re-heapify. -/
def pqUpdate (q : List (Entry K V)) (i : Nat) (v : V) (now : Nat) : List (Entry K V) :=
  heapFix (modifyAt q i (fun e => referenced now { e with val := v })) i

theorem pqUpdate_key_perm (q : List (Entry K V)) (i : Nat) (v : V) (now : Nat) :
    ((pqUpdate q i v now).map Entry.key).Perm (q.map Entry.key) := by
  have h1 := (heapFix_perm (modifyAt q i (fun e => referenced now { e with val := v })) i).map
    Entry.key
  rw [modifyAt_map_key q i (fun e => referenced now { e with val := v }) (fun e => rfl)] at h1
  exact h1

structure Cache (K V : Type) where
  cap : Nat
  queue : List (Entry K V)
  items : List K

/-- `NewCache` with `WithCapacity cap` (the default capacity is 128). -/
def newCache (cap : Nat) : Cache K V := ⟨cap, [], []⟩

/-- `Get`: on a hit, bump the reference count, refresh the timestamp and
re-heapify that entry; return its value. -/
def Cache.get (c : Cache K V) (now : Nat) (k : K) : Option V × Cache K V :=
  if k ∈ c.items then
    match c.queue.get? (idxOfKey c.queue k) with
    | some e =>
      (some e.val,
        ⟨c.cap,
         heapFix (modifyAt c.queue (idxOfKey c.queue k) (referenced now)) (idxOfKey c.queue k),
         c.items⟩)
    | none => (none, c)
  else (none, c)

/-- `Set`: an existing key is updated in place (`queue.update`); a new key
first evicts the heap root when the map is at capacity, then is pushed with
its initial reference count. -/
def Cache.set (grc : V → Int) (c : Cache K V) (now : Nat) (k : K) (v : V) : Cache K V :=
  if k ∈ c.items then
    ⟨c.cap, pqUpdate c.queue (idxOfKey c.queue k) v now, c.items⟩
  else
    let c1 : Cache K V :=
      if c.items.length = c.cap then
        match heapPop c.queue with
        | (some ev, q2) => ⟨c.cap, q2, c.items.erase ev.key⟩
        | (none, q2) => ⟨c.cap, q2, c.items⟩
      else c
    ⟨c1.cap, heapPush c1.queue (newEntry grc k v now), k :: c1.items⟩

/-- `Delete`: remove the entry by its recorded heap index and drop the map
entry. -/
def Cache.delete (c : Cache K V) (k : K) : Cache K V :=
  if k ∈ c.items then
    ⟨c.cap, (heapRemove c.queue (idxOfKey c.queue k)).2, c.items.erase k⟩
  else c

/-- `Len` is the heap size. -/
def Cache.len (c : Cache K V) : Nat := c.queue.length

/-- `Keys` returns the keys in current heap array order. -/
def Cache.keys (c : Cache K V) : List K := c.queue.map Entry.key

/-- Invariant: the heap keys are a permutation of the map keys (map and heap
are kept in sync by every operation), the map keys are distinct, and the
heap never exceeds the capacity. -/
def Inv (c : Cache K V) : Prop :=
  ((c.queue.map Entry.key).Perm c.items) ∧ c.items.Nodup ∧ c.queue.length ≤ c.cap

theorem lfu_inv_get (c : Cache K V) (now : Nat) (k : K) (h : Inv c) :
    Inv ((c.get now k).2) ∧ ((c.get now k).2).cap = c.cap := by
  obtain ⟨hperm, hnodup, hlen⟩ := h
  by_cases hmem : k ∈ c.items
  · cases hg : c.queue.get? (idxOfKey c.queue k) with
    | none =>
      have hres : (c.get now k).2 = c := by
        simp only [Cache.get, if_pos hmem, hg]
      rw [hres]
      exact ⟨⟨hperm, hnodup, hlen⟩, rfl⟩
    | some e =>
      have hres : (c.get now k).2 =
          ⟨c.cap,
           heapFix (modifyAt c.queue (idxOfKey c.queue k) (referenced now)) (idxOfKey c.queue k),
           c.items⟩ := by
        simp only [Cache.get, if_pos hmem, hg]
      rw [hres]
      have hfixperm := (heapFix_perm
        (modifyAt c.queue (idxOfKey c.queue k) (referenced now)) (idxOfKey c.queue k))
      have hkeys := hfixperm.map Entry.key
      rw [modifyAt_map_key c.queue (idxOfKey c.queue k) (referenced now) (fun e => rfl)] at hkeys
      refine ⟨⟨hkeys.trans hperm, hnodup, ?_⟩, rfl⟩
      show (heapFix _ _).length ≤ c.cap
      have h2 : (modifyAt c.queue (idxOfKey c.queue k) (referenced now)).length
          = c.queue.length := by
        have := congrArg List.length
          (modifyAt_map_key c.queue (idxOfKey c.queue k) (referenced now) (fun e => rfl))
        simpa using this
      rw [hfixperm.length_eq, h2]
      exact hlen
  · have hres : (c.get now k).2 = c := by
      simp only [Cache.get, if_neg hmem]
    rw [hres]
    exact ⟨⟨hperm, hnodup, hlen⟩, rfl⟩

theorem lfu_inv_delete (c : Cache K V) (k : K) (h : Inv c) :
    Inv (c.delete k) ∧ (c.delete k).cap = c.cap := by
  obtain ⟨hperm, hnodup, hlen⟩ := h
  by_cases hmem : k ∈ c.items
  · have hres : c.delete k =
        ⟨c.cap, (heapRemove c.queue (idxOfKey c.queue k)).2, c.items.erase k⟩ := by
      simp only [Cache.delete, if_pos hmem]
    rw [hres]
    have hkq : k ∈ c.queue.map Entry.key := (hperm.mem_iff).mpr hmem
    obtain ⟨e, he, hke⟩ := idxOfKey_spec c.queue k hkq
    obtain ⟨q2, hrem, hremperm⟩ := heapRemove_spec c.queue (idxOfKey c.queue k) e he
    rw [hrem]
    refine ⟨⟨?_, List.Nodup.erase k hnodup, ?_⟩, rfl⟩
    · show (q2.map Entry.key).Perm (c.items.erase k)
      rw [hke] at hremperm
      have h1 : (k :: q2.map Entry.key).Perm c.items := hremperm.trans hperm
      exact (List.cons_perm_iff_perm_erase.mp h1).2
    · show q2.length ≤ c.cap
      have hlq2 : q2.length + 1 = c.queue.length := by
        have := hremperm.length_eq
        simpa using this
      omega
  · have hres : c.delete k = c := by
      simp only [Cache.delete, if_neg hmem]
    rw [hres]
    exact ⟨⟨hperm, hnodup, hlen⟩, rfl⟩

theorem lfu_inv_set (grc : V → Int) (c : Cache K V) (now : Nat) (k : K) (v : V)
    (hcap : 1 ≤ c.cap) (h : Inv c) :
    Inv (Cache.set grc c now k v) ∧ (Cache.set grc c now k v).cap = c.cap := by
  obtain ⟨hperm, hnodup, hlen⟩ := h
  by_cases hmem : k ∈ c.items
  · have hres : Cache.set grc c now k v =
        ⟨c.cap, pqUpdate c.queue (idxOfKey c.queue k) v now, c.items⟩ := by
      simp only [Cache.set, if_pos hmem]
    rw [hres]
    have hupd := pqUpdate_key_perm c.queue (idxOfKey c.queue k) v now
    refine ⟨⟨hupd.trans hperm, hnodup, ?_⟩, rfl⟩
    show (pqUpdate _ _ _ _).length ≤ c.cap
    have := hupd.length_eq
    simp only [List.length_map] at this
    omega
  · have hlel : c.queue.length = c.items.length := by
      have := hperm.length_eq
      simpa using this
    by_cases hfull : c.items.length = c.cap
    · have hqne : c.queue ≠ [] := by
        intro hc
        rw [hc] at hlel
        simp at hlel
        omega
      obtain ⟨ev, q2, hpop, hpopperm⟩ := heapPop_spec c.queue hqne
      have hres : Cache.set grc c now k v =
          ⟨c.cap, heapPush q2 (newEntry grc k v now), k :: c.items.erase ev.key⟩ := by
        simp only [Cache.set, if_neg hmem, if_pos hfull, hpop]
      rw [hres]
      have hevmem : ev.key ∈ c.items :=
        hperm.mem_iff.mp (hpopperm.mem_iff.mp (by simp))
      have hq2perm : (q2.map Entry.key).Perm (c.items.erase ev.key) := by
        have h1 : (ev.key :: q2.map Entry.key).Perm c.items := hpopperm.trans hperm
        exact (List.cons_perm_iff_perm_erase.mp h1).2
      have hq2len : q2.length + 1 = c.queue.length := by
        have := hpopperm.length_eq
        simpa using this
      refine ⟨⟨?_, ?_, ?_⟩, rfl⟩
      · show ((heapPush q2 (newEntry grc k v now)).map Entry.key).Perm (k :: c.items.erase ev.key)
        exact (heapPush_key_perm q2 (newEntry grc k v now)).trans (List.Perm.cons k hq2perm)
      · show (k :: c.items.erase ev.key).Nodup
        rw [List.nodup_cons]
        exact ⟨fun hc => hmem (List.mem_of_mem_erase hc), List.Nodup.erase _ hnodup⟩
      · show (heapPush q2 (newEntry grc k v now)).length ≤ c.cap
        have := (heapPush_key_perm q2 (newEntry grc k v now)).length_eq
        simp only [List.length_map, List.length_cons] at this
        omega
    · have hres : Cache.set grc c now k v =
          ⟨c.cap, heapPush c.queue (newEntry grc k v now), k :: c.items⟩ := by
        simp only [Cache.set, if_neg hmem, if_neg hfull]
      rw [hres]
      refine ⟨⟨?_, ?_, ?_⟩, rfl⟩
      · show ((heapPush c.queue (newEntry grc k v now)).map Entry.key).Perm (k :: c.items)
        exact (heapPush_key_perm c.queue (newEntry grc k v now)).trans (List.Perm.cons k hperm)
      · show (k :: c.items).Nodup
        rw [List.nodup_cons]
        exact ⟨hmem, hnodup⟩
      · show (heapPush c.queue (newEntry grc k v now)).length ≤ c.cap
        have := (heapPush_key_perm c.queue (newEntry grc k v now)).length_eq
        simp only [List.length_map, List.length_cons] at this
        omega

end lfu

/-! ## Cache orchestrator (`cache.go`)

`Cache` composes any policy implementing `Interface` with the TTL logic.
The policy is abstracted as a record of its four methods over an opaque
state (`Get` may mutate, so it returns a new state).  Timestamps are
`time.Time ... UnixNano()` values, embedded as `Int`; the global `nowFunc`
seam is a `now` argument threaded into each operation. -/

structure Item (K V : Type) where
  key : K
  value : V
  expiration : Int
deriving DecidableEq

structure itemOptions where
  expiration : Int

/-- `ItemOption` is a mutator of `itemOptions`. -/
def ItemOption : Type := itemOptions → itemOptions

/-- `WithExpiration(exp)` stores `nowFunc().Add(exp).UnixNano()` — the
absolute instant `now + exp` — with no case for non-positive durations,
despite its doc comment promising that those mean "without expiration". -/
def withExpiration (now exp : Int) : ItemOption :=
  fun o => { o with expiration := now + exp }

/-- `newItem` folds the options over the default (`expiration = 0`). -/
def newItem {K V : Type} (k : K) (v : V) (opts : List ItemOption) : Item K V :=
  let o := opts.foldl (fun acc f => f acc) ⟨0⟩
  ⟨k, v, o.expiration⟩

/-- The `Interface[K, *Item[K,V]]` a policy engine provides to the
orchestrator (`simple`, `lru`, `lfu`, `fifo`, `mru` or `clock`). -/
structure PolicyModel (K W S : Type) where
  get : S → K → Option W × S
  set : S → K → W → S
  delete : S → K → S
  keys : S → List K

/-- `Cache.Get`: a miss stays a miss; a hit on an item whose expiration is
positive and strictly in the past deletes the key and reports a miss;
otherwise the value is returned. -/
def cacheGet {K V S : Type} (p : PolicyModel K (Item K V) S) (now : Int) (s : S) (k : K) :
    Option V × S :=
  let r := p.get s k
  match r.1 with
  | none => (none, r.2)
  | some item =>
    if 0 < item.expiration ∧ item.expiration < now then (none, p.delete r.2 k)
    else (some item.value, r.2)

/-- `Cache.Set`: builds the item from the options and stores it (the source
branches on `item.Expiration <= 0` but both branches perform the same
`c.cache.Set`). -/
def cacheSet {K V S : Type} (p : PolicyModel K (Item K V) S) (s : S) (k : K) (v : V)
    (opts : List ItemOption) : S :=
  let item := newItem k v opts
  if item.expiration ≤ 0 then p.set s k item
  else p.set s k item

/-- `Cache.Contains` asks the policy for the key and ignores expiration. -/
def cacheContains {K V S : Type} (p : PolicyModel K (Item K V) S) (s : S) (k : K) :
    Bool × S :=
  let r := p.get s k
  (r.1.isSome, r.2)

/-- `Cache.DeleteExpired` snapshots the keys and funnels each through
`Cache.Get`, which lazily purges the expired ones. -/
def cacheDeleteExpired {K V S : Type} (p : PolicyModel K (Item K V) S) (now : Int) (s : S) : S :=
  (p.keys s).foldl (fun acc k => (cacheGet p now acc k).2) s

/-- `NumberCache.Increment`: `Get` (zero value on a miss), add, `Set`
through the public API with no options. -/
def ncIncrement {K S : Type} (p : PolicyModel K (Item K Int) S) (now : Int) (s : S)
    (k : K) (n : Int) : Int × S :=
  let r := cacheGet p now s k
  let nv := r.1.getD 0 + n
  (nv, cacheSet p r.2 k nv [])

/-- `NumberCache.Decrement`. -/
def ncDecrement {K S : Type} (p : PolicyModel K (Item K Int) S) (now : Int) (s : S)
    (k : K) (n : Int) : Int × S :=
  let r := cacheGet p now s k
  let nv := r.1.getD 0 - n
  (nv, cacheSet p r.2 k nv [])

/-- The `simple` policy (`policy/simple/simple.go`): a guarded map with no
eviction.  The state is the entry list in creation order (`Keys` sorts by
`CreatedAt`, and each `Set` stores a fresh `time.Now()`, so replacing a key
moves it to the newest position — `removeKey` plus append). -/
def simpleModel (K W : Type) [DecidableEq K] : PolicyModel K W (List (K × W)) where
  get := fun s k => (findVal s k, s)
  set := fun s k v => removeKey s k ++ [(k, v)]
  delete := fun s k => removeKey s k
  keys := fun s => s.map Prod.fst

/-- The default cache `New[Nat, Nat]()` uses the simple policy. -/
def simpleP : PolicyModel Nat (Item Nat Nat) (List (Nat × Item Nat Nat)) :=
  simpleModel Nat (Item Nat Nat)

/-- The default number cache `NewNumber[Nat, int]()`. -/
def simplePInt : PolicyModel Nat (Item Nat Int) (List (Nat × Item Nat Int)) :=
  simpleModel Nat (Item Nat Int)

/-- **C1, code evaluated at the failing input.** `WithExpiration(-1)` at
`t₀ = 10^6` ns stores `expiration = t₀ - 1 > 0`, so a `Get` at the very same
instant `t₀` already treats the item as expired: it returns a miss, deletes
the key, and a following `Contains` is false — even though the item was
physically present before the `Get` and both the spec and `WithExpiration`'s
own doc comment promise "never expires" for non-positive durations. -/
theorem withExpiration_nonpositive_expires_immediately :
    (cacheContains simpleP
      (cacheSet simpleP [] 7 42 [withExpiration 1000000 (-1)]) 7).1 = true ∧
    (cacheGet simpleP 1000000
      (cacheSet simpleP [] 7 42 [withExpiration 1000000 (-1)]) 7).1 = none ∧
    (cacheContains simpleP
      ((cacheGet simpleP 1000000
        (cacheSet simpleP [] 7 42 [withExpiration 1000000 (-1)]) 7).2) 7).1 = false ∧
    (cacheContains simpleP
      (cacheDeleteExpired simpleP 1000000
        (cacheSet simpleP [] 7 42 [withExpiration 1000000 (-1)])) 7).1 = false := by
  decide

/-- **C5.** A `Get` that finds an item with a positive expiration strictly
in the past behaves exactly like a miss — it returns `(zero, false)` — and
deletes the key from the policy store, so an immediately following
`Contains` reports false (given that the policy's `Get` misses after its
`Delete`, which every engine satisfies). -/
theorem cache_get_expired_is_miss_and_purges
    {K V S : Type} [DecidableEq K] (p : PolicyModel K (Item K V) S)
    (s s2 : S) (k : K) (it : Item K V) (now : Int)
    (hget : p.get s k = (some it, s2))
    (hpos : 0 < it.expiration)
    (hpast : it.expiration < now)
    (hdel : (p.get (p.delete s2 k) k).1 = none) :
    cacheGet p now s k = (none, p.delete s2 k) ∧
    (cacheContains p (p.delete s2 k) k).1 = false := by
  constructor
  · show (let r := p.get s k
      match r.1 with
      | none => (none, r.2)
      | some item =>
        if 0 < item.expiration ∧ item.expiration < now then (none, p.delete r.2 k)
        else (some item.value, r.2)) = (none, p.delete s2 k)
    rw [hget]
    simp only
    rw [if_pos ⟨hpos, hpast⟩]
  · show ((p.get (p.delete s2 k) k).1.isSome, (p.get (p.delete s2 k) k).2).1 = false
    simp only [hdel, Option.isSome_none]

/-- Witness for C5 with the simple policy: key 0 holds an item that expired
at instant 5, read at instant 6. -/
theorem cache_get_expired_is_miss_and_purges_witness :
    cacheGet simpleP 6 [(0, ⟨0, 42, 5⟩)] 0 = (none, simpleP.delete [(0, ⟨0, 42, 5⟩)] 0) ∧
    (cacheContains simpleP (simpleP.delete [(0, ⟨0, 42, 5⟩)] 0) 0).1 = false :=
  cache_get_expired_is_miss_and_purges simpleP [(0, ⟨0, 42, 5⟩)] [(0, ⟨0, 42, 5⟩)] 0
    ⟨0, 42, 5⟩ 6 (by decide) (by decide) (by decide) (by decide)

theorem cacheSet_no_opts {K V S : Type} (p : PolicyModel K (Item K V) S) (s : S)
    (k : K) (v : V) : cacheSet p s k v [] = p.set s k ⟨k, v, 0⟩ := by
  show (if (0 : Int) ≤ 0 then p.set s k ⟨k, v, 0⟩ else p.set s k ⟨k, v, 0⟩) = _
  rw [if_pos (le_refl 0)]

/-- **C8.** On a key that `Cache.Get` misses — absent, or expired at the
read instant — `Increment(k, n)` returns `n` and stores `n` with no TTL, so
a following `Get` (at any instant) returns `(n, true)`; symmetrically
`Decrement(k, n)` returns `-n`.  The policy hypothesis is the get-after-set
contract every engine satisfies. -/
theorem ncIncrement_on_missing_key
    {K S : Type} [DecidableEq K] (p : PolicyModel K (Item K Int) S)
    (s : S) (k : K) (n : Int) (now now2 : Int)
    (hmiss : (cacheGet p now s k).1 = none)
    (hgs : ∀ w : Item K Int, (p.get (p.set ((cacheGet p now s k).2) k w) k).1 = some w) :
    (ncIncrement p now s k n).1 = n ∧
    (cacheGet p now2 ((ncIncrement p now s k n).2) k).1 = some n ∧
    (ncDecrement p now s k n).1 = -n := by
  have hinc : ncIncrement p now s k n
      = (n, p.set ((cacheGet p now s k).2) k ⟨k, n, 0⟩) := by
    show ((cacheGet p now s k).1.getD 0 + n,
      cacheSet p ((cacheGet p now s k).2) k ((cacheGet p now s k).1.getD 0 + n) []) = _
    rw [hmiss]
    simp only [Option.getD_none, zero_add]
    rw [cacheSet_no_opts]
  have hival : (ncIncrement p now s k n).1 = n := by rw [hinc]
  have histate : (ncIncrement p now s k n).2
      = p.set ((cacheGet p now s k).2) k ⟨k, n, 0⟩ := by rw [hinc]
  refine ⟨hival, ?_, ?_⟩
  · rw [histate]
    have hg2 : (p.get (p.set ((cacheGet p now s k).2) k ⟨k, n, 0⟩) k).1
        = some ⟨k, n, 0⟩ := hgs ⟨k, n, 0⟩
    generalize hq : p.set ((cacheGet p now s k).2) k (⟨k, n, 0⟩ : Item K Int) = s3 at hg2
    simp only [cacheGet]
    rw [hg2]
    simp
  · show ((cacheGet p now s k).1.getD 0 - n, _).1 = -n
    rw [hmiss]
    simp

/-- Witness for C8: the default number cache, empty state, `Increment(3, 5)`
at instant 10 and a read at instant 99. -/
theorem ncIncrement_on_missing_key_witness :
    (ncIncrement simplePInt 10 [] 3 5).1 = 5 ∧
    (cacheGet simplePInt 99 ((ncIncrement simplePInt 10 [] 3 5).2) 3).1 = some 5 ∧
    (ncDecrement simplePInt 10 [] 3 5).1 = -5 :=
  ncIncrement_on_missing_key simplePInt [] 3 5 10 99 (by decide) (fun w => rfl)

/-! ## Janitor (claim C4)

The janitor the spec describes (`newJanitor`/`run`/`stop` with a
cancellation context and a `done` channel) is not among the source files;
only its test (`janitor_test.go`) is.  The loop is modelled from the spec as
a sequential event-stream processor: each tick runs one cleanup sweep; the
cancellation signal runs one final sweep, signals completion exactly once,
and terminates the loop. -/

inductive JEvent where
  | tick : JEvent
  | cancel : JEvent
deriving DecidableEq

structure Janitor where
  cleanups : Nat
  doneSignaled : Bool
  doneSignals : Nat
  terminated : Bool
deriving DecidableEq

def newJanitor : Janitor := ⟨0, false, 0, false⟩

/-- Modelled from the spec: the janitor's `stop` — "signals its own
completion exactly once (idempotent stop — multiple stop requests must not
double-signal or panic)". -/
def Janitor.stop (j : Janitor) : Janitor :=
  if j.doneSignaled then j
  else { j with doneSignaled := true, doneSignals := j.doneSignals + 1 }

/-- Modelled from the spec: one iteration of the janitor's `run` loop — "On
each tick it invokes the orchestrator's DeleteExpired sweep ... On
cancellation it performs exactly one final sweep before terminating ... and
then signals its own completion exactly once".  After termination, further
events reach a loop that no longer exists. -/
def Janitor.step (j : Janitor) (e : JEvent) : Janitor :=
  if j.terminated then j
  else match e with
    | .tick => { j with cleanups := j.cleanups + 1 }
    | .cancel => { ({ j with cleanups := j.cleanups + 1 }).stop with terminated := true }

def Janitor.run (events : List JEvent) : Janitor :=
  events.foldl Janitor.step newJanitor

theorem janitor_step_terminated (j : Janitor) (e : JEvent) (h : j.terminated = true) :
    j.step e = j := by
  unfold Janitor.step
  rw [h]
  rfl

theorem janitor_foldl_terminated (events : List JEvent) :
    ∀ (j : Janitor), j.terminated = true → events.foldl Janitor.step j = j := by
  induction events with
  | nil => intro j _; rfl
  | cons e rest ih =>
    intro j h
    show rest.foldl Janitor.step (j.step e) = j
    rw [janitor_step_terminated j e h]
    exact ih j h

theorem janitor_foldl_ticks (pre : List JEvent) :
    ∀ (c : Nat), (∀ e ∈ pre, e = .tick) →
    pre.foldl Janitor.step ⟨c, false, 0, false⟩ = ⟨c + pre.length, false, 0, false⟩ := by
  induction pre with
  | nil => intro c _; simp
  | cons e rest ih =>
    intro c hticks
    have he : e = JEvent.tick := hticks e (by simp)
    subst he
    show rest.foldl Janitor.step (Janitor.step ⟨c, false, 0, false⟩ .tick) = _
    have hstep : Janitor.step ⟨c, false, 0, false⟩ .tick = ⟨c + 1, false, 0, false⟩ := rfl
    rw [hstep, ih (c + 1) (fun e he => hticks e (by simp [he]))]
    have : c + 1 + rest.length = c + (rest.length + 1) := by omega
    rw [this]
    simp

/-- **C4.** For any run consisting of ticks followed by the cancellation
signal (and anything after it): the loop performs one cleanup per tick plus
exactly one final sweep at cancellation, signals completion exactly once,
terminates (events after cancellation do nothing), and a further `stop`
neither double-signals nor panics. -/
theorem janitor_final_sweep_and_idempotent_stop
    (pre post : List JEvent) (hticks : ∀ e ∈ pre, e = JEvent.tick) :
    (Janitor.run (pre ++ JEvent.cancel :: post)).cleanups = pre.length + 1 ∧
    (Janitor.run (pre ++ JEvent.cancel :: post)).doneSignals = 1 ∧
    (Janitor.run (pre ++ JEvent.cancel :: post)).terminated = true ∧
    ((Janitor.run (pre ++ JEvent.cancel :: post)).stop).doneSignals = 1 := by
  unfold Janitor.run
  rw [List.foldl_append]
  rw [show newJanitor = (⟨0, false, 0, false⟩ : Janitor) from rfl]
  rw [janitor_foldl_ticks pre 0 hticks]
  rw [List.foldl_cons]
  have hstep : Janitor.step ⟨0 + pre.length, false, 0, false⟩ .cancel
      = ⟨0 + pre.length + 1, true, 1, true⟩ := rfl
  rw [hstep]
  rw [janitor_foldl_terminated post _ rfl]
  refine ⟨?_, rfl, rfl, rfl⟩
  show 0 + pre.length + 1 = pre.length + 1
  omega

/-- Witness for C4: two ticks, cancel, one stray event after. -/
theorem janitor_final_sweep_and_idempotent_stop_witness :
    (Janitor.run [JEvent.tick, JEvent.tick, JEvent.cancel, JEvent.tick]).cleanups = 3 ∧
    (Janitor.run [JEvent.tick, JEvent.tick, JEvent.cancel, JEvent.tick]).doneSignals = 1 ∧
    (Janitor.run [JEvent.tick, JEvent.tick, JEvent.cancel, JEvent.tick]).terminated = true ∧
    ((Janitor.run [JEvent.tick, JEvent.tick, JEvent.cancel, JEvent.tick]).stop).doneSignals = 1 :=
  janitor_final_sweep_and_idempotent_stop [JEvent.tick, JEvent.tick] [JEvent.tick]
    (by decide)

/-! ## Claim C9: capacity bound for every policy engine

An operation sequence is a list of `Get`/`Set`/`Delete` calls; each policy
is run from its freshly constructed empty cache.  The LFU run threads a
monotone tick standing for the `time.Now()` reads, and instantiates the
capability probe with the default (no `GetReferenceCount` on plain
numbers). -/

inductive CacheOp where
  | get : Nat → CacheOp
  | set : Nat → Nat → CacheOp
  | del : Nat → CacheOp
deriving DecidableEq

def lruStep (c : lru.Cache Nat Nat) : CacheOp → lru.Cache Nat Nat
  | .get k => (c.get k).2
  | .set k v => c.set k v
  | .del k => c.delete k

def lruRun (cap : Nat) (ops : List CacheOp) : lru.Cache Nat Nat :=
  ops.foldl lruStep (lru.newCache cap)

def mruStep (c : mru.Cache Nat Nat) : CacheOp → mru.Cache Nat Nat
  | .get k => (c.get k).2
  | .set k v => c.set k v
  | .del k => c.delete k

def mruRun (cap : Nat) (ops : List CacheOp) : mru.Cache Nat Nat :=
  ops.foldl mruStep (mru.newCache cap)

def fifoStep (c : fifo.Cache Nat Nat) : CacheOp → fifo.Cache Nat Nat
  | .get k => (c.get k).2
  | .set k v => c.set k v
  | .del k => c.delete k

def fifoRun (cap : Nat) (ops : List CacheOp) : fifo.Cache Nat Nat :=
  ops.foldl fifoStep (fifo.newCache cap)

def clockStep (c : clock.Cache Nat Nat) : CacheOp → clock.Cache Nat Nat
  | .get k => (c.get k).2
  | .set k v => c.set k v
  | .del k => c.delete k

def clockRun (cap : Nat) (ops : List CacheOp) : clock.Cache Nat Nat :=
  ops.foldl clockStep (clock.newCache cap)

def lfuStep (g : lfu.Cache Nat Nat × Nat) (op : CacheOp) : lfu.Cache Nat Nat × Nat :=
  match op with
  | .get k => ((g.1.get g.2 k).2, g.2 + 1)
  | .set k v => (lfu.Cache.set (fun _ => 1) g.1 g.2 k v, g.2 + 1)
  | .del k => (g.1.delete k, g.2 + 1)

def lfuRun (cap : Nat) (ops : List CacheOp) : lfu.Cache Nat Nat :=
  (ops.foldl lfuStep (lfu.newCache cap, 0)).1

theorem lruStep_cap (c : lru.Cache Nat Nat) (op : CacheOp) : (lruStep c op).cap = c.cap := by
  cases op with
  | get k =>
    show ((c.get k).2).cap = c.cap
    unfold lru.Cache.get
    cases findVal c.list k <;> rfl
  | set k v =>
    show (c.set k v).cap = c.cap
    unfold lru.Cache.set
    cases findVal c.list k
    · simp only
      split <;> rfl
    · rfl
  | del k =>
    show (c.delete k).cap = c.cap
    unfold lru.Cache.delete
    cases findVal c.list k <;> rfl

theorem lruRun_bounded (ops : List CacheOp) :
    ∀ (c : lru.Cache Nat Nat), c.list.length ≤ c.cap →
    (ops.foldl lruStep c).list.length ≤ (ops.foldl lruStep c).cap ∧
    (ops.foldl lruStep c).cap = c.cap := by
  induction ops with
  | nil => intro c h; exact ⟨h, rfl⟩
  | cons op rest ih =>
    intro c h
    have hcap := lruStep_cap c op
    have hlen : (lruStep c op).list.length ≤ (lruStep c op).cap := by
      rw [hcap]
      cases op with
      | get k => exact lru.lru_len_le_cap_get c k h
      | set k v => exact lru.lru_len_le_cap_set c k v h
      | del k => exact lru.lru_len_le_cap_delete c k h
    obtain ⟨h1, h2⟩ := ih (lruStep c op) hlen
    exact ⟨h1, h2.trans hcap⟩

theorem mruStep_cap (c : mru.Cache Nat Nat) (op : CacheOp) : (mruStep c op).cap = c.cap := by
  cases op with
  | get k =>
    show ((c.get k).2).cap = c.cap
    unfold mru.Cache.get
    cases findVal c.list k <;> rfl
  | set k v =>
    show (c.set k v).cap = c.cap
    unfold mru.Cache.set
    cases findVal c.list k
    · simp only [mru.Cache.deleteNewest]
      split <;> rfl
    · rfl
  | del k =>
    show (c.delete k).cap = c.cap
    unfold mru.Cache.delete
    cases findVal c.list k <;> rfl

theorem mruRun_bounded (ops : List CacheOp) :
    ∀ (c : mru.Cache Nat Nat), 1 ≤ c.cap → c.list.length ≤ c.cap →
    (ops.foldl mruStep c).list.length ≤ (ops.foldl mruStep c).cap ∧
    (ops.foldl mruStep c).cap = c.cap := by
  induction ops with
  | nil => intro c _ h; exact ⟨h, rfl⟩
  | cons op rest ih =>
    intro c hcap1 h
    have hcap := mruStep_cap c op
    have hlen : (mruStep c op).list.length ≤ (mruStep c op).cap := by
      rw [hcap]
      cases op with
      | get k => exact mru.mru_len_le_cap_get c k h
      | set k v => exact mru.mru_len_le_cap_set c k v hcap1 h
      | del k => exact mru.mru_len_le_cap_delete c k h
    obtain ⟨h1, h2⟩ := ih (mruStep c op) (by rw [hcap]; exact hcap1) hlen
    exact ⟨h1, h2.trans hcap⟩

theorem fifoStep_cap (c : fifo.Cache Nat Nat) (op : CacheOp) :
    (fifoStep c op).capacity = c.capacity := by
  cases op with
  | get k => rfl
  | set k v =>
    show (c.set k v).capacity = c.capacity
    unfold fifo.Cache.set fifo.Cache.dequeue fifo.Cache.delete
    split <;> rfl
  | del k => rfl

theorem fifoRun_bounded (ops : List CacheOp) :
    ∀ (c : fifo.Cache Nat Nat), 1 ≤ c.capacity → c.queue.length ≤ c.capacity →
    (ops.foldl fifoStep c).queue.length ≤ (ops.foldl fifoStep c).capacity ∧
    (ops.foldl fifoStep c).capacity = c.capacity := by
  induction ops with
  | nil => intro c _ h; exact ⟨h, rfl⟩
  | cons op rest ih =>
    intro c hcap1 h
    have hcap := fifoStep_cap c op
    have hlen : (fifoStep c op).queue.length ≤ (fifoStep c op).capacity := by
      rw [hcap]
      cases op with
      | get k => exact h
      | set k v => exact fifo.fifo_len_le_cap_set c k v hcap1 h
      | del k => exact fifo.fifo_len_le_cap_delete c k h
    obtain ⟨h1, h2⟩ := ih (fifoStep c op) (by rw [hcap]; exact hcap1) hlen
    exact ⟨h1, h2.trans hcap⟩

theorem clockRun_inv (ops : List CacheOp) :
    ∀ (c : clock.Cache Nat Nat), clock.Inv c →
    clock.Inv (ops.foldl clockStep c) ∧ (ops.foldl clockStep c).capacity = c.capacity := by
  induction ops with
  | nil => intro c h; exact ⟨h, rfl⟩
  | cons op rest ih =>
    intro c h
    have hstep : clock.Inv (clockStep c op) ∧ (clockStep c op).capacity = c.capacity := by
      cases op with
      | get k => exact clock.clock_inv_get c k h
      | set k v => exact clock.clock_inv_set c k v h
      | del k => exact clock.clock_inv_delete c k h
    obtain ⟨h1, h2⟩ := ih (clockStep c op) hstep.1
    exact ⟨h1, h2.trans hstep.2⟩

theorem clock_newCache_inv (cap : Nat) (hcap : 1 ≤ cap) :
    clock.Inv (clock.newCache cap : clock.Cache Nat Nat) := by
  refine ⟨hcap, by simp [clock.newCache], by simp [clock.newCache]; omega,
    by simp [clock.newCache], ?_, ?_⟩
  · intro p hp
    simp [clock.newCache] at hp
  · right
    constructor
    · intro i hi
      simp [clock.newCache] at hi
    · intro i _
      exact clock.ringGet_replicate_none cap i

theorem lfuRun_inv (ops : List CacheOp) :
    ∀ (g : lfu.Cache Nat Nat × Nat), 1 ≤ g.1.cap → lfu.Inv g.1 →
    lfu.Inv ((ops.foldl lfuStep g).1) ∧ ((ops.foldl lfuStep g).1).cap = g.1.cap := by
  induction ops with
  | nil => intro g _ h; exact ⟨h, rfl⟩
  | cons op rest ih =>
    intro g hcap1 h
    have hstep : lfu.Inv ((lfuStep g op).1) ∧ ((lfuStep g op).1).cap = g.1.cap := by
      cases op with
      | get k => exact lfu.lfu_inv_get g.1 g.2 k h
      | set k v => exact lfu.lfu_inv_set (fun _ => 1) g.1 g.2 k v hcap1 h
      | del k => exact lfu.lfu_inv_delete g.1 k h
    obtain ⟨h1, h2⟩ := ih (lfuStep g op) (by rw [hstep.2]; exact hcap1) hstep.1
    exact ⟨h1, h2.trans hstep.2⟩

/-- **C9.** For each capacity-bounded policy engine — LRU, MRU, FIFO,
Clock, LFU — constructed with capacity at least 1, after every finite
sequence of `Get`/`Set`/`Delete` operations starting from the empty cache,
`Len()` is at most the configured capacity. -/
theorem policies_len_le_capacity :
    (∀ (cap : Nat) (ops : List CacheOp), 1 ≤ cap → (lruRun cap ops).len ≤ cap) ∧
    (∀ (cap : Nat) (ops : List CacheOp), 1 ≤ cap → (mruRun cap ops).len ≤ cap) ∧
    (∀ (cap : Nat) (ops : List CacheOp), 1 ≤ cap → (fifoRun cap ops).len ≤ cap) ∧
    (∀ (cap : Nat) (ops : List CacheOp), 1 ≤ cap → (clockRun cap ops).len ≤ cap) ∧
    (∀ (cap : Nat) (ops : List CacheOp), 1 ≤ cap → (lfuRun cap ops).len ≤ cap) := by
  refine ⟨?_, ?_, ?_, ?_, ?_⟩
  · intro cap ops _
    obtain ⟨h1, h2⟩ := lruRun_bounded ops (lru.newCache cap) (by simp [lru.newCache])
    exact le_trans h1 (le_of_eq h2)
  · intro cap ops hcap
    obtain ⟨h1, h2⟩ := mruRun_bounded ops (mru.newCache cap)
      (by simpa [mru.newCache] using hcap) (by simp [mru.newCache])
    exact le_trans h1 (le_of_eq h2)
  · intro cap ops hcap
    obtain ⟨h1, h2⟩ := fifoRun_bounded ops (fifo.newCache cap)
      (by simpa [fifo.newCache] using hcap) (by simp [fifo.newCache])
    exact le_trans h1 (le_of_eq h2)
  · intro cap ops hcap
    obtain ⟨h1, h2⟩ := clockRun_inv ops (clock.newCache cap) (clock_newCache_inv cap hcap)
    exact le_trans (clock.len_le_of_inv _ h1) (le_of_eq h2)
  · intro cap ops hcap
    obtain ⟨h1, h2⟩ := lfuRun_inv ops (lfu.newCache cap, 0)
      (by simpa [lfu.newCache] using hcap)
      ⟨by simp [lfu.newCache], by simp [lfu.newCache], by simp [lfu.newCache]⟩
    exact le_trans h1.2.2 (le_of_eq h2)

/-- Witness for C9 at capacity 1 with a short mixed trace. -/
theorem policies_len_le_capacity_witness :
    (1 ≤ 1) ∧
    (lruRun 1 [.set 0 0, .set 1 5, .get 1, .del 0]).len ≤ 1 ∧
    (mruRun 1 [.set 0 0, .set 1 5, .get 1, .del 0]).len ≤ 1 ∧
    (fifoRun 1 [.set 0 0, .set 1 5, .get 1, .del 0]).len ≤ 1 ∧
    (clockRun 1 [.set 0 0, .set 1 5, .get 1, .del 0]).len ≤ 1 ∧
    (lfuRun 1 [.set 0 0, .set 1 5, .get 1, .del 0]).len ≤ 1 :=
  ⟨le_refl 1,
   policies_len_le_capacity.1 1 _ (by decide),
   policies_len_le_capacity.2.1 1 _ (by decide),
   policies_len_le_capacity.2.2.1 1 _ (by decide),
   policies_len_le_capacity.2.2.2.1 1 _ (by decide),
   policies_len_le_capacity.2.2.2.2 1 _ (by decide)⟩
